import Mathlib

/-!
Shallow embedding of the hawkes-lob-simulator core
(src/cpp/src/order_book.cpp, src/cpp/src/hawkes_multivariate_process.cpp,
src/cpp/apps/simulate_hawkes_multivariate.cpp).

Conventions of the embedding:
* C++ `double` values that the code only ever checks for finiteness and
  otherwise uses with exact comparisons (prices, tick size) are modelled as
  `Option ℚ`: `none` stands for a non-finite double (NaN or infinity) and
  `some q` for a finite value.  Event times, which the order book only checks
  for finiteness, are modelled as `Option ℝ`.
* `std::map<double,int>` (a search tree ordered by ascending key) is modelled
  as an association list sorted strictly by ascending key; `begin()` is the
  head and `prev(end())` the last element.
* The Hawkes engine works with genuinely real-valued quantities
  (`std::exp`, `std::log`), so its state is modelled over `ℝ`; its
  `std::mt19937` draws are modelled as explicit streams of draws consumed
  sequentially, and the unbounded thinning loop is given explicit fuel.
-/

/-- Side of the book (src/cpp/include/event.h). -/
inductive Side where
  | Bid
  | Ask
deriving DecidableEq, Repr

/-- Kind of order-book event (src/cpp/include/event.h). -/
inductive EventType where
  | Add
  | Cancel
  | Market
deriving DecidableEq, Repr

/-- A single order-book event (src/cpp/include/event.h).
`t` and `price` are C++ doubles modelled as `Option`: `none` is a
non-finite double. -/
structure Event where
  t : Option ℝ
  type : EventType
  side : Side
  price : Option ℚ
  quantity : ℤ

/-- One side of the book: `std::map<double,int>` modelled as an association
list sorted by strictly ascending price. -/
abbrev SideMap := List (ℚ × ℤ)

/-- Total resting quantity of a side. -/
def totalQty (m : SideMap) : ℤ := (m.map Prod.snd).sum

/-- The last binding of a side map (`std::prev(map.end())`), i.e. the one
with the highest price. -/
def lastEntry : SideMap → Option (ℚ × ℤ)
  | [] => none
  | [lv] => some lv
  | _ :: lv :: rest => lastEntry (lv :: rest)

/-- First binding of a price in a side map (`side_map.find(price)`). -/
def findQty : SideMap → ℚ → Option ℤ
  | [], _ => none
  | (p, v) :: rest, px => if p = px then some v else findQty rest px

/-- `side_map[price] += qty` on a `std::map`: add to the existing binding or
insert a fresh one at its sorted position. -/
def insertQty : SideMap → ℚ → ℤ → SideMap
  | [], px, q => [(px, q)]
  | (p, v) :: rest, px, q =>
    if px < p then (px, q) :: (p, v) :: rest
    else if px = p then (p, v + q) :: rest
    else (p, v) :: insertQty rest px q

/-- `OrderBook::add_level` (order_book.cpp lines 28-32). -/
def add_level (m : SideMap) (price : ℚ) (qty : ℤ) : SideMap :=
  if qty ≤ 0 then m else insertQty m price qty

/-- Body of `OrderBook::remove_level_qty`: locate the binding at `px` and
subtract `q` from it, erasing it when the result drops to `≤ 0`. -/
def removeGo : SideMap → ℚ → ℤ → SideMap
  | [], _, _ => []
  | (p, v) :: rest, px, q =>
    if p = px then (if v - q ≤ 0 then rest else (p, v - q) :: rest)
    else (p, v) :: removeGo rest px q

/-- `OrderBook::remove_level_qty` (order_book.cpp lines 34-43): subtract
`qty` from the binding at `price` if it exists, erasing it when the result
drops to `≤ 0`; no-op when `qty ≤ 0` or the price is absent. -/
def remove_level_qty (m : SideMap) (price : ℚ) (qty : ℤ) : SideMap :=
  if qty ≤ 0 then m else removeGo m price qty

/-- `OrderBook::consume_best_ask` (order_book.cpp lines 45-58): walk the ask
side from the lowest (= best) price, erasing fully depleted levels and
leaving the residual at a partially consumed one. -/
def consume_best_ask : SideMap → ℤ → SideMap
  | [], _ => []
  | (px, av) :: rest, q =>
    if q ≤ 0 then (px, av) :: rest
    else if q < av then (px, av - q) :: rest
    else consume_best_ask rest (q - av)

/-- `OrderBook::consume_best_bid` (order_book.cpp lines 60-73): walk the bid
side from the highest (= best) price, i.e. from the head of the reversed
ascending list. -/
def consume_best_bid (m : SideMap) (q : ℤ) : SideMap :=
  (consume_best_ask m.reverse q).reverse

/-- Top of book snapshot (src/cpp/include/order_book.h). -/
structure TopOfBook where
  best_bid_price : Option ℚ
  best_bid_qty : Option ℤ
  best_ask_price : Option ℚ
  best_ask_qty : Option ℤ

/-- Derived metrics (src/cpp/include/order_book.h). -/
structure Metrics where
  mid : Option ℚ
  spread : Option ℚ
  imbalance_top1 : Option ℚ

/-- The order book: tick size plus one sorted side map per side
(src/cpp/include/order_book.h). -/
structure OrderBook where
  tick_size : ℚ
  bids : SideMap
  asks : SideMap
deriving DecidableEq

/-- `OrderBook::OrderBook` (order_book.cpp lines 15-21): a non-positive or
non-finite tick size is silently replaced by the fallback `0.1`. -/
def OrderBook.new (tick : Option ℚ) : OrderBook :=
  { tick_size :=
      match tick with
      | some tq => if tq > 0 then tq else 0.1
      | none => 0.1
    bids := []
    asks := [] }

/-- `std::round`: round half away from zero. -/
def roundHalfAway (x : ℚ) : ℤ :=
  if 0 ≤ x then ⌊x + 1 / 2⌋ else ⌈x - 1 / 2⌉

/-- `OrderBook::round_to_tick` (order_book.cpp lines 23-26). -/
def OrderBook.round_to_tick (b : OrderBook) (price : ℚ) : ℚ :=
  (roundHalfAway (price / b.tick_size) : ℚ) * b.tick_size

/-- `OrderBook::top` (order_book.cpp lines 139-156): the best bid is the
last (highest) binding of the ascending bid map, the best ask the first
(lowest) binding of the ask map. -/
def OrderBook.top (b : OrderBook) : TopOfBook :=
  { best_bid_price := (lastEntry b.bids).map Prod.fst
    best_bid_qty := (lastEntry b.bids).map Prod.snd
    best_ask_price := b.asks.head?.map Prod.fst
    best_ask_qty := b.asks.head?.map Prod.snd }

/-- `OrderBook::apply` (order_book.cpp lines 75-137).  Returns the C++
return value paired with the book after the call. -/
def OrderBook.apply (b : OrderBook) (e : Event) : Bool × OrderBook :=
  if e.t.isNone ∨ e.quantity ≤ 0 then (false, b)
  else
    let tob := b.top
    match e.type with
    | EventType.Add =>
      match e.price with
      | none => (false, b)
      | some pr =>
        if pr ≤ 0 then (false, b)
        else
          let px := b.round_to_tick pr
          match e.side with
          | Side.Bid =>
            match tob.best_ask_price with
            | some a =>
              if a ≤ px then (true, { b with asks := consume_best_ask b.asks e.quantity })
              else (true, { b with bids := add_level b.bids px e.quantity })
            | none => (true, { b with bids := add_level b.bids px e.quantity })
          | Side.Ask =>
            match tob.best_bid_price with
            | some bb =>
              if px ≤ bb then (true, { b with bids := consume_best_bid b.bids e.quantity })
              else (true, { b with asks := add_level b.asks px e.quantity })
            | none => (true, { b with asks := add_level b.asks px e.quantity })
    | EventType.Cancel =>
      match e.price with
      | none => (false, b)
      | some pr =>
        if pr ≤ 0 then (false, b)
        else
          let px := b.round_to_tick pr
          match e.side with
          | Side.Bid => (true, { b with bids := remove_level_qty b.bids px e.quantity })
          | Side.Ask => (true, { b with asks := remove_level_qty b.asks px e.quantity })
    | EventType.Market =>
      match e.side with
      | Side.Bid => (true, { b with asks := consume_best_ask b.asks e.quantity })
      | Side.Ask => (true, { b with bids := consume_best_bid b.bids e.quantity })

/-- `OrderBook::metrics` (order_book.cpp lines 158-180). -/
def OrderBook.metrics (b : OrderBook) : Metrics :=
  let tob := b.top
  match tob.best_bid_price, tob.best_ask_price with
  | some bid, some ask =>
    let qb : ℚ := match tob.best_bid_qty with | some q => (q : ℚ) | none => 0
    let qa : ℚ := match tob.best_ask_qty with | some q => (q : ℚ) | none => 0
    { mid := some (0.5 * (bid + ask))
      spread := some (ask - bid)
      imbalance_top1 := if 0 < qb + qa then some ((qb - qa) / (qb + qa)) else none }
  | _, _ => ⟨none, none, none⟩

/-- Fold a sequence of events through `OrderBook.apply`, keeping only the
resulting book (the simulator ignores the boolean). -/
def applyEvents (b : OrderBook) (es : List Event) : OrderBook :=
  es.foldl (fun b e => (b.apply e).2) b

/-! ### Representation invariants of the book -/

/-- Every stored level has quantity at least 1. -/
def levelsPos (m : SideMap) : Prop := ∀ lv ∈ m, 1 ≤ lv.2

/-- The prices of a side map are strictly ascending (the `std::map` order). -/
def keysSorted (m : SideMap) : Prop := (m.map Prod.fst).Pairwise (fun a b => a < b)

/-- Every bid price is strictly below every ask price. -/
def sidesSeparated (b : OrderBook) : Prop :=
  ∀ pb ∈ b.bids.map Prod.fst, ∀ pa ∈ b.asks.map Prod.fst, pb < pa

/-- Invariant satisfied by every book reachable through `apply`. -/
def BookInv (b : OrderBook) : Prop :=
  keysSorted b.bids ∧ keysSorted b.asks ∧ levelsPos b.bids ∧ levelsPos b.asks ∧
    sidesSeparated b

/-- Specification of best-price-first consumption: the result `r` is obtained
from `m` by erasing a fully consumed best-price prefix (whose total is within
the consumed quantity) and, possibly, leaving a residual at the next level. -/
def consumedBestFirst (m : SideMap) (q : ℤ) (r : SideMap) : Prop :=
  ∃ k, (r = m.drop k ∧ totalQty (m.take k) ≤ q) ∨
    (∃ px av rest, m.drop k = (px, av) :: rest ∧
      r = (px, av - (q - totalQty (m.take k))) :: rest ∧
      totalQty (m.take k) < q ∧ q - totalQty (m.take k) < av)

/-- A book obtained from a freshly constructed book by a finite sequence of
`apply` calls. -/
def reachableBook (tick : Option ℚ) (es : List Event) : OrderBook :=
  applyEvents (OrderBook.new tick) es

/-! ### The Hawkes engine (src/cpp/src/hawkes_multivariate_process.cpp)

The engine state is modelled over `ℝ`.  The `std::mt19937` generator together
with its distributions is modelled as two streams of already-transformed
draws (`real` for `uniform_real_distribution(0,1)`, `qty` for the integer
quantity distribution) consumed sequentially; a seed determines the streams,
so equal seeds give equal streams. -/

/-- State of `HawkesMultivariateProcess` (hawkes_multivariate_process.h):
baselines, excitation and decay matrices, excitation accumulators `s`,
cached intensities `lambda`, state weights `w` and `last_time`. -/
structure HawkesState where
  mu : Fin 6 → ℝ
  alpha : Fin 6 → Fin 6 → ℝ
  beta : Fin 6 → Fin 6 → ℝ
  s : Fin 6 → ℝ
  lam : Fin 6 → ℝ
  w : Fin 6 → ℝ
  last_time : ℝ

/-- The constructor (lines 8-44) after its validation: `s = 0`,
`lambda = mu`, `w = 1`, `last_time = 0`. -/
def HawkesState.init (mu : Fin 6 → ℝ) (alpha beta : Fin 6 → Fin 6 → ℝ) : HawkesState :=
  ⟨mu, alpha, beta, fun _ => 0, mu, fun _ => 1, 0⟩

/-- `set_weights` (lines 46-58): non-positive entries are coerced to `1`
(a non-finite double has no counterpart in the ℝ model). -/
noncomputable def set_weights (st : HawkesState) (w : Fin 6 → ℝ) : HawkesState :=
  { st with w := fun i => if w i ≤ 0 then 1 else w i }

/-- `decay_to` (lines 60-74): exponential decay of the accumulators using
only the diagonal of `beta`, refresh of the cached intensities with the
clamp at `0`, advance of `last_time`; no-op when `t ≤ last_time`. -/
noncomputable def decay_to (st : HawkesState) (t : ℝ) : HawkesState :=
  if t ≤ st.last_time then st
  else
    { st with
      s := fun i => st.s i * Real.exp (-(st.beta i i) * (t - st.last_time))
      lam := fun i =>
        let l := st.mu i + st.s i * Real.exp (-(st.beta i i) * (t - st.last_time))
        if l < 0 then 0 else l
      last_time := t }

/-- `total_weighted_intensity` (lines 76-85): sum of `w i * lambda i` over
the dimensions with positive intensity. -/
noncomputable def total_weighted_intensity (st : HawkesState) : ℝ :=
  ∑ i : Fin 6, if 0 < st.lam i then st.w i * st.lam i else 0

/-- The explicit random streams of the engine, with read positions. -/
structure RNG where
  real : ℕ → ℝ
  qty : ℕ → ℤ
  rpos : ℕ
  qpos : ℕ

/-- Draw the next `uniform_real_distribution(0,1)` value. -/
def RNG.nextReal (g : RNG) : ℝ × RNG :=
  (g.real g.rpos, { g with rpos := g.rpos + 1 })

/-- Draw the next quantity (`uniform_int_distribution(qty_min, qty_max)`). -/
def RNG.nextQty (g : RNG) : ℤ × RNG :=
  (g.qty g.qpos, { g with qpos := g.qpos + 1 })

/-- The cumulative walk of `sample_dimension_weighted` (lines 98-104). -/
noncomputable def sampleWalk (st : HawkesState) (u : ℝ) : List (Fin 6) → ℝ → Fin 6
  | [], _ => 5
  | i :: rest, acc =>
    if st.lam i ≤ 0 then sampleWalk st u rest acc
    else
      if u ≤ acc + st.w i * st.lam i then i
      else sampleWalk st u rest (acc + st.w i * st.lam i)

/-- `sample_dimension_weighted` (lines 87-105): returns `0` without drawing
when the total is not positive, otherwise draws `u` and walks the
cumulative weighted intensities. -/
noncomputable def sample_dimension_weighted (st : HawkesState) (g : RNG) : Fin 6 × RNG :=
  let total := total_weighted_intensity st
  if 0 < total then
    let p := g.nextReal
    (sampleWalk st (p.1 * total) (List.finRange 6) 0, p.2)
  else (0, g)

/-- The excitation jump on acceptance of an event of category `k`
(lines 138-142): `s i += alpha i k`, intensities refreshed and clamped. -/
noncomputable def excite (st : HawkesState) (k : Fin 6) : HawkesState :=
  { st with
    s := fun i => st.s i + st.alpha i k
    lam := fun i =>
      let l := st.mu i + (st.s i + st.alpha i k)
      if l < 0 then 0 else l }

/-- Category-to-event-type mapping (lines 156-163). -/
def catType : Fin 6 → EventType
  | 0 => EventType.Add
  | 1 => EventType.Add
  | 2 => EventType.Cancel
  | 3 => EventType.Cancel
  | 4 => EventType.Market
  | 5 => EventType.Market

/-- Category-to-side mapping (lines 156-163). -/
def catSide : Fin 6 → Side
  | 0 => Side.Bid
  | 1 => Side.Ask
  | 2 => Side.Bid
  | 3 => Side.Ask
  | 4 => Side.Bid
  | 5 => Side.Ask

/-- The thinning loop of `next` (lines 112-170), with explicit fuel standing
for the unbounded C++ `while (true)`; `none` means the fuel ran out. -/
noncomputable def hawkesLoop : ℕ → HawkesState → ℝ → RNG → Option (Event × HawkesState × RNG)
  | 0, _, _, _ => none
  | fuel + 1, st, current_time, g =>
    let lambda_bar := total_weighted_intensity st
    if 0 < lambda_bar then
      let p1 := g.nextReal
      let wait := -Real.log p1.1 / lambda_bar
      let cand_time := current_time + wait
      let st1 := decay_to st cand_time
      let lambda_cand := total_weighted_intensity st1
      let p2 := p1.2.nextReal
      if p2.1 ≤ lambda_cand / lambda_bar then
        let kg := sample_dimension_weighted st1 p2.2
        let st2 := excite st1 kg.1
        let qg := kg.2.nextQty
        some (⟨some cand_time, catType kg.1, catSide kg.1, some 0, qg.1⟩, st2, qg.2)
      else
        hawkesLoop fuel st1 cand_time p2.2
    else
      hawkesLoop fuel { st with w := fun _ => 1 } current_time g

/-- `next` (lines 107-171): decay to the caller time and run the loop. -/
noncomputable def hawkesNext (fuel : ℕ) (st : HawkesState) (t : ℝ) (g : RNG) :
    Option (Event × HawkesState × RNG) :=
  hawkesLoop fuel (decay_to st t) t g

/-! ### The simulator (src/cpp/apps/simulate_hawkes_multivariate.cpp)

The placement `std::mt19937 rng(42)` is modelled as one stream `prand` of
already-transformed integer draws with a read position, again so that a seed
determines the stream. -/

/-- `compute_weights` (app lines 14-52), computed exactly over ℚ.  The final
clamp `[0.05, 50]` subsumes the non-finite check of the source, which has no
ℚ counterpart. -/
def compute_weights (book : OrderBook) : Fin 6 → ℚ :=
  match (book.top).best_bid_price, (book.top).best_ask_price with
  | some bid, some ask =>
    let tick := book.tick_size
    let spread := ask - bid
    let spread_ticks := if 0 < tick then spread / tick else 1
    let qb : ℚ := match (book.top).best_bid_qty with | some q => (q : ℚ) | none => 0
    let qa : ℚ := match (book.top).best_ask_qty with | some q => (q : ℚ) | none => 0
    let denom := qb + qa
    let imbalance := if 0 < denom then (qb - qa) / denom else 0
    let wide := 1 + 0.8 * spread_ticks
    let tight := 1 + 2.5 / (1 + spread_ticks)
    let wraw : Fin 6 → ℚ := fun i =>
      match i with
      | 0 => wide
      | 1 => wide
      | 2 => 1 + 0.01 * qb
      | 3 => 1 + 0.01 * qa
      | 4 => tight * (1 + 1.5 * max 0 imbalance)
      | 5 => tight * (1 + 1.5 * max 0 (-imbalance))
    fun i => min (max (wraw i) 0.05) 50
  | _, _ => fun _ => 1

/-- The book-liveness step of the simulation loop (app lines 113-120): using
the top snapshot taken before any injection, inject an `Add` of quantity 50
at `price_center - tick` when the bid side is empty and at
`price_center + tick` when the ask side is empty. -/
def livenessStep (pc tick : ℚ) (tv : ℝ) (b : OrderBook) : OrderBook :=
  let tob := b.top
  let b1 :=
    if tob.best_bid_price.isNone
    then (b.apply ⟨some tv, EventType.Add, Side.Bid, some (pc - tick), 50⟩).2
    else b
  if tob.best_ask_price.isNone
  then (b1.apply ⟨some tv, EventType.Add, Side.Ask, some (pc + tick), 50⟩).2
  else b1

/-- State threaded through the simulation loop. -/
structure SimState where
  book : OrderBook
  hawkes : HawkesState
  clock : ℝ
  g : RNG
  prand : ℕ → ℤ
  ppos : ℕ

/-- The placement logic (app lines 127-157): price the event from the best
quotes, consuming placement draws exactly as the source does.  Returns the
priced event and the new read position.  `Int.floor` models the C++
truncating cast, whose value agrees on these thresholds. -/
def placeEvent (tick : ℚ) (best_bid best_ask : ℚ) (prand : ℕ → ℤ) (ppos : ℕ)
    (e : Event) : Event × ℕ :=
  let spread_ticks := (best_ask - best_bid) / tick
  if e.type = EventType.Add then
    let improve_prob : ℚ := if spread_ticks ≥ 3 then 0.45 else 0.20
    let join_prob : ℚ := 0.50
    let roll := prand ppos
    if e.side = Side.Bid then
      if roll < Int.floor (improve_prob * 100) ∧ best_bid + tick < best_ask then
        ({ e with price := some (best_bid + tick) }, ppos + 1)
      else if roll < Int.floor ((improve_prob + join_prob) * 100) then
        ({ e with price := some best_bid }, ppos + 1)
      else
        let depth := prand (ppos + 1)
        ({ e with price := some (best_bid - depth * tick) }, ppos + 2)
    else
      if roll < Int.floor (improve_prob * 100) ∧ best_bid < best_ask - tick then
        ({ e with price := some (best_ask - tick) }, ppos + 1)
      else if roll < Int.floor ((improve_prob + join_prob) * 100) then
        ({ e with price := some best_ask }, ppos + 1)
      else
        let depth := prand (ppos + 1)
        ({ e with price := some (best_ask + depth * tick) }, ppos + 2)
  else if e.type = EventType.Cancel then
    ({ e with price := some (if e.side = Side.Bid then best_bid else best_ask) }, ppos)
  else
    ({ e with price := some 0 }, ppos)

/-- One iteration of the simulation loop (app lines 107-178): install the
state-dependent weights, draw the next event, run the liveness step, read
the best quotes (the source dereferences them unconditionally, which is
undefined behaviour when a side is still empty: the model stops there),
price the event and apply it. -/
noncomputable def simStep (pc tick : ℚ) (fuel : ℕ) (s : SimState) : Option (Event × SimState) :=
  let st1 := set_weights s.hawkes (fun i => ((compute_weights s.book i : ℚ) : ℝ))
  match hawkesNext fuel st1 s.clock s.g with
  | none => none
  | some (e, st2, g2) =>
    match e.t with
    | none => none
    | some tv =>
      let b2 := livenessStep pc tick tv s.book
      match (b2.top).best_bid_price, (b2.top).best_ask_price with
      | some best_bid, some best_ask =>
        let pe := placeEvent tick best_bid best_ask s.prand s.ppos e
        let b3 := (b2.apply pe.1).2
        some (pe.1,
          { book := b3, hawkes := st2, clock := tv, g := g2,
            prand := s.prand, ppos := pe.2 })
      | _, _ => none

/-- The simulation loop run for `n` iterations, collecting the emitted
events. -/
noncomputable def simRun (pc tick : ℚ) (fuel : ℕ) : ℕ → SimState → List Event
  | 0, _ => []
  | n + 1, s =>
    match simStep pc tick fuel s with
    | none => []
    | some (e, s2) => e :: simRun pc tick fuel n s2

/-- The seeding of the deep book (app lines 99-102): ten levels per side at
`price_center ± k * tick`, quantity 60. -/
def seedBook (pc tick : ℚ) : OrderBook :=
  applyEvents (OrderBook.new (some tick))
    ((List.range 10).flatMap fun k =>
      [⟨some 0, EventType.Add, Side.Bid, some (pc - (k + 1 : ℕ) * tick), 60⟩,
       ⟨some 0, EventType.Add, Side.Ask, some (pc + (k + 1 : ℕ) * tick), 60⟩])

/-- The whole simulation (app `main`): seed the book, construct the engine,
run `N` iterations.  Everything is a function of the parameters and the
random streams (which a seed determines). -/
noncomputable def simulate (mu : Fin 6 → ℝ) (alpha beta : Fin 6 → Fin 6 → ℝ)
    (g : RNG) (prand : ℕ → ℤ) (pc tick : ℚ) (fuel N : ℕ) : List Event :=
  simRun pc tick fuel N
    { book := seedBook pc tick, hawkes := HawkesState.init mu alpha beta,
      clock := 0, g := g, prand := prand, ppos := 0 }

/-! ### Concrete inputs used by witnesses and the C3 counterexample -/

/-- A book with an empty bid side and one ask resting below
`price_center - tick`: the C3 failing input. -/
def bookC3 : OrderBook := { tick_size := 1 / 10, bids := [], asks := [(499 / 5, 10)] }

/-- Two passive adds (spec boundary scenario 1, first part). -/
def esC1 : List Event :=
  [⟨some 0, EventType.Add, Side.Bid, some 100, 50⟩,
   ⟨some 0, EventType.Add, Side.Ask, some (201 / 2), 50⟩]

/-- The crossing add of spec boundary scenario 1. -/
def evC1 : Event := ⟨some 0, EventType.Add, Side.Bid, some (201 / 2), 20⟩

/-- A cancel with non-positive quantity (precondition failure). -/
def evC4 : Event := ⟨some 0, EventType.Cancel, Side.Bid, some 1, 0⟩

/-- The book of spec boundary scenario 2. -/
def bookC5 : OrderBook :=
  { tick_size := 1 / 10, bids := [(999 / 10, 10)],
    asks := [(1001 / 10, 10), (1002 / 10, 15), (1003 / 10, 20)] }

/-- The market buy of spec boundary scenario 2. -/
def evC5 : Event := ⟨some 0, EventType.Market, Side.Bid, some 0, 22⟩

/-- The book of spec boundary scenario 3. -/
def bookC7 : OrderBook := { tick_size := 1 / 10, bids := [(999 / 10, 10)], asks := [] }

/-- The cancel of an absent level (spec boundary scenario 3). -/
def evC7 : Event := ⟨some 0, EventType.Cancel, Side.Ask, some (201 / 2), 5⟩

/-- A cancel on the bid side, for the frame witness. -/
def evC10 : Event := ⟨some 0, EventType.Cancel, Side.Bid, some (999 / 10), 4⟩

/-- A freshly initialised engine state with unit parameters. -/
noncomputable def stC2 : HawkesState :=
  { mu := fun _ => 1, alpha := fun _ _ => 0, beta := fun _ _ => 1,
    s := fun _ => 0, lam := fun _ => if (1 : ℝ) + 0 < 0 then 0 else 1 + 0,
    w := fun _ => 1, last_time := 0 }

/-- Constant random streams in the required ranges. -/
noncomputable def rngC6 : RNG := { real := fun _ => 1 / 2, qty := fun _ => 7, rpos := 0, qpos := 0 }

/-- A simulator state over `bookC5` with the unit engine. -/
noncomputable def simC6 : SimState :=
  { book := bookC5, hawkes := stC2, clock := 0, g := rngC6, prand := fun _ => 0, ppos := 0 }

/-- Unit baselines for the determinism witness. -/
def muC9 : Fin 6 → ℝ := fun _ => 1

/-- Zero excitation matrix for the determinism witness. -/
def aC9 : Fin 6 → Fin 6 → ℝ := fun _ _ => 0

/-! ### Lemmas about the side-map primitives -/

theorem lastEntry_eq_none : ∀ {m : SideMap}, lastEntry m = none ↔ m = []
  | [] => by simp [lastEntry]
  | [lv] => by simp [lastEntry]
  | a :: b :: rest => by
    have ih := lastEntry_eq_none (m := b :: rest)
    constructor
    · intro h
      exact absurd (ih.mp h) (by simp)
    · intro h
      simp at h

theorem lastEntry_mem : ∀ {m : SideMap} {lv : ℚ × ℤ}, lastEntry m = some lv → lv ∈ m
  | [], _, h => by simp [lastEntry] at h
  | [a], lv, h => by
    simp [lastEntry] at h
    simp [h]
  | a :: b :: rest, lv, h =>
    List.mem_cons_of_mem a (lastEntry_mem (m := b :: rest) h)

theorem keysSorted_cons {a : ℚ × ℤ} {m : SideMap} (h : keysSorted (a :: m)) :
    (∀ x ∈ m, a.1 < x.1) ∧ keysSorted m := by
  unfold keysSorted at h ⊢
  rw [List.map_cons, List.pairwise_cons] at h
  exact ⟨fun x hx => h.1 x.1 (List.mem_map_of_mem Prod.fst hx), h.2⟩

theorem lastEntry_max : ∀ {m : SideMap}, keysSorted m → ∀ {lv : ℚ × ℤ},
    lastEntry m = some lv → ∀ x ∈ m, x.1 ≤ lv.1
  | [], _, _, h => by simp [lastEntry] at h
  | [a], _, lv, h => by
    intro x hx
    have hx2 : x = a := by simpa using hx
    have ha : a = lv := by simpa [lastEntry] using h
    rw [hx2, ha]
  | a :: b :: rest, hs, lv, h => by
    intro x hx
    have hrec := lastEntry_max (keysSorted_cons hs).2 (m := b :: rest) h
    rcases List.mem_cons.mp hx with rfl | hx
    · exact le_of_lt ((keysSorted_cons hs).1 lv (lastEntry_mem (m := b :: rest) h))
    · exact hrec x hx

theorem head_min {m : SideMap} (hs : keysSorted m) {lv : ℚ × ℤ}
    (h : m.head? = some lv) : ∀ x ∈ m, lv.1 ≤ x.1 := by
  cases m with
  | nil => simp at h
  | cons a rest =>
    have ha : a = lv := by simpa using h
    intro x hx
    rcases List.mem_cons.mp hx with rfl | hx
    · rw [ha]
    · rw [← ha]
      exact le_of_lt ((keysSorted_cons hs).1 x hx)

theorem insertQty_keys_subset : ∀ {m : SideMap} {px : ℚ} {q : ℤ},
    ∀ k ∈ (insertQty m px q).map Prod.fst, k = px ∨ k ∈ m.map Prod.fst
  | [], px, q, k, hk => by
    simp [insertQty] at hk
    exact Or.inl hk
  | (p, v) :: rest, px, q, k, hk => by
    unfold insertQty at hk
    by_cases h1 : px < p
    · rw [if_pos h1] at hk
      simp at hk ⊢
      tauto
    · rw [if_neg h1] at hk
      by_cases h2 : px = p
      · rw [if_pos h2] at hk
        simp at hk ⊢
        tauto
      · rw [if_neg h2] at hk
        rw [List.map_cons, List.mem_cons] at hk
        rcases hk with rfl | hk
        · simp
        · rcases insertQty_keys_subset k hk with rfl | h
          · exact Or.inl rfl
          · simp [h]

theorem insertQty_sorted : ∀ {m : SideMap}, keysSorted m → ∀ {px : ℚ} {q : ℤ},
    keysSorted (insertQty m px q)
  | [], _, px, q => by simp [insertQty, keysSorted]
  | (p, v) :: rest, hs, px, q => by
    unfold insertQty
    by_cases h1 : px < p
    · rw [if_pos h1]
      unfold keysSorted
      rw [List.map_cons, List.pairwise_cons]
      refine ⟨?_, hs⟩
      intro k hk
      rw [List.map_cons, List.mem_cons] at hk
      rcases hk with rfl | hk
      · exact h1
      · rcases List.mem_map.mp hk with ⟨x, hx, rfl⟩
        exact lt_trans h1 ((keysSorted_cons hs).1 x hx)
    · rw [if_neg h1]
      by_cases h2 : px = p
      · rw [if_pos h2]
        subst h2
        unfold keysSorted at hs ⊢
        simpa using hs
      · rw [if_neg h2]
        have hgt : p < px := by
          rcases lt_trichotomy px p with h | h | h
          · exact absurd h h1
          · exact absurd h h2
          · exact h
        unfold keysSorted
        rw [List.map_cons, List.pairwise_cons]
        refine ⟨?_, insertQty_sorted (keysSorted_cons hs).2⟩
        intro k hk
        rcases insertQty_keys_subset k hk with rfl | h
        · exact hgt
        · rcases List.mem_map.mp h with ⟨x, hx, rfl⟩
          exact (keysSorted_cons hs).1 x hx

theorem insertQty_pos : ∀ {m : SideMap}, levelsPos m → ∀ {px : ℚ} {q : ℤ}, 1 ≤ q →
    levelsPos (insertQty m px q)
  | [], _, px, q, hq => by
    intro lv hlv
    simp [insertQty] at hlv
    simp [hlv, hq]
  | (p, v) :: rest, hv, px, q, hq => by
    intro lv hlv
    unfold insertQty at hlv
    by_cases h1 : px < p
    · rw [if_pos h1] at hlv
      rcases List.mem_cons.mp hlv with rfl | hlv
      · exact hq
      · exact hv lv hlv
    · rw [if_neg h1] at hlv
      by_cases h2 : px = p
      · rw [if_pos h2] at hlv
        rcases List.mem_cons.mp hlv with rfl | hlv
        · have hv1 : 1 ≤ v := hv (p, v) (by simp)
          show (1 : ℤ) ≤ v + q
          omega
        · exact hv lv (List.mem_cons_of_mem _ hlv)
      · rw [if_neg h2] at hlv
        rcases List.mem_cons.mp hlv with rfl | hlv
        · exact hv (p, v) (by simp)
        · exact insertQty_pos (fun x hx => hv x (List.mem_cons_of_mem _ hx)) hq lv hlv

theorem removeGo_keys_sublist : ∀ (m : SideMap) (px : ℚ) (q : ℤ),
    List.Sublist ((removeGo m px q).map Prod.fst) (m.map Prod.fst)
  | [], px, q => by simp [removeGo]
  | (p, v) :: rest, px, q => by
    unfold removeGo
    by_cases h1 : p = px
    · rw [if_pos h1]
      by_cases h2 : v - q ≤ 0
      · rw [if_pos h2]
        exact (List.sublist_cons_self _ _).trans (List.Sublist.refl _)
      · rw [if_neg h2]
        simp
    · rw [if_neg h1]
      rw [List.map_cons, List.map_cons]
      exact (removeGo_keys_sublist rest px q).cons₂ p

theorem removeGo_pos : ∀ {m : SideMap}, levelsPos m → ∀ {px : ℚ} {q : ℤ},
    levelsPos (removeGo m px q)
  | [], _, px, q => by simp [removeGo, levelsPos]
  | (p, v) :: rest, hv, px, q => by
    intro lv hlv
    unfold removeGo at hlv
    by_cases h1 : p = px
    · rw [if_pos h1] at hlv
      by_cases h2 : v - q ≤ 0
      · rw [if_pos h2] at hlv
        exact hv lv (List.mem_cons_of_mem _ hlv)
      · rw [if_neg h2] at hlv
        rcases List.mem_cons.mp hlv with rfl | hlv
        · show (1 : ℤ) ≤ v - q
          omega
        · exact hv lv (List.mem_cons_of_mem _ hlv)
    · rw [if_neg h1] at hlv
      rcases List.mem_cons.mp hlv with rfl | hlv
      · exact hv (p, v) (by simp)
      · exact removeGo_pos (fun x hx => hv x (List.mem_cons_of_mem _ hx)) lv hlv

theorem remove_level_qty_keys_sublist (m : SideMap) (px : ℚ) (q : ℤ) :
    List.Sublist ((remove_level_qty m px q).map Prod.fst) (m.map Prod.fst) := by
  unfold remove_level_qty
  by_cases h : q ≤ 0
  · rw [if_pos h]
  · rw [if_neg h]
    exact removeGo_keys_sublist m px q

theorem remove_level_qty_pos {m : SideMap} (hv : levelsPos m) (px : ℚ) (q : ℤ) :
    levelsPos (remove_level_qty m px q) := by
  unfold remove_level_qty
  by_cases h : q ≤ 0
  · rw [if_pos h]
    exact hv
  · rw [if_neg h]
    exact removeGo_pos hv

theorem consume_best_ask_keys_sublist : ∀ (m : SideMap) (q : ℤ),
    List.Sublist ((consume_best_ask m q).map Prod.fst) (m.map Prod.fst)
  | [], q => by simp [consume_best_ask]
  | (px, av) :: rest, q => by
    unfold consume_best_ask
    by_cases h1 : q ≤ 0
    · rw [if_pos h1]
    · rw [if_neg h1]
      by_cases h2 : q < av
      · rw [if_pos h2]
        simp
      · rw [if_neg h2]
        exact (consume_best_ask_keys_sublist rest (q - av)).trans
          (List.sublist_cons_self _ _)

theorem consume_best_ask_pos : ∀ {m : SideMap}, levelsPos m → ∀ {q : ℤ},
    levelsPos (consume_best_ask m q)
  | [], _, q => by simp [consume_best_ask, levelsPos]
  | (px, av) :: rest, hv, q => by
    intro lv hlv
    unfold consume_best_ask at hlv
    by_cases h1 : q ≤ 0
    · rw [if_pos h1] at hlv
      exact hv lv hlv
    · rw [if_neg h1] at hlv
      by_cases h2 : q < av
      · rw [if_pos h2] at hlv
        rcases List.mem_cons.mp hlv with rfl | hlv
        · show (1 : ℤ) ≤ av - q
          omega
        · exact hv lv (List.mem_cons_of_mem _ hlv)
      · rw [if_neg h2] at hlv
        exact consume_best_ask_pos (fun x hx => hv x (List.mem_cons_of_mem _ hx)) lv hlv

theorem consume_best_bid_keys_sublist (m : SideMap) (q : ℤ) :
    List.Sublist ((consume_best_bid m q).map Prod.fst) (m.map Prod.fst) := by
  unfold consume_best_bid
  rw [List.map_reverse]
  have h := consume_best_ask_keys_sublist m.reverse q
  rw [List.map_reverse] at h
  have h2 : List.Sublist (((consume_best_ask m.reverse q).map Prod.fst).reverse)
      (((m.map Prod.fst).reverse).reverse) := h.reverse
  rw [List.reverse_reverse] at h2
  exact h2

theorem consume_best_bid_pos {m : SideMap} (hv : levelsPos m) (q : ℤ) :
    levelsPos (consume_best_bid m q) := by
  intro lv hlv
  unfold consume_best_bid at hlv
  rw [List.mem_reverse] at hlv
  exact consume_best_ask_pos (fun x hx => hv x (List.mem_reverse.mp hx)) lv hlv

/-! ### Preservation of the invariant by `apply` -/

theorem BookInv.setAsks {b : OrderBook} (h : BookInv b) {m : SideMap}
    (hsub : List.Sublist (m.map Prod.fst) (b.asks.map Prod.fst))
    (hpos : levelsPos m) : BookInv { b with asks := m } := by
  obtain ⟨hsb, hsa, hpb, hpa, hsep⟩ := h
  refine ⟨hsb, List.Pairwise.sublist hsub hsa, hpb, hpos, ?_⟩
  intro pb hpb2 pa hpa2
  exact hsep pb hpb2 pa (hsub.subset hpa2)

theorem BookInv.setBids {b : OrderBook} (h : BookInv b) {m : SideMap}
    (hsub : List.Sublist (m.map Prod.fst) (b.bids.map Prod.fst))
    (hpos : levelsPos m) : BookInv { b with bids := m } := by
  obtain ⟨hsb, hsa, hpb, hpa, hsep⟩ := h
  refine ⟨List.Pairwise.sublist hsub hsb, hsa, hpos, hpa, ?_⟩
  intro pb hpb2 pa hpa2
  exact hsep pb (hsub.subset hpb2) pa hpa2

theorem BookInv.addBidPassive {b : OrderBook} (h : BookInv b) {px : ℚ} {q : ℤ}
    (hq : 1 ≤ q) (hlt : ∀ pa ∈ b.asks.map Prod.fst, px < pa) :
    BookInv { b with bids := add_level b.bids px q } := by
  obtain ⟨hsb, hsa, hpb, hpa, hsep⟩ := h
  have hq0 : ¬ q ≤ 0 := by omega
  unfold add_level
  rw [if_neg hq0]
  refine ⟨insertQty_sorted hsb, hsa, insertQty_pos hpb hq, hpa, ?_⟩
  intro pb hpb2 pa hpa2
  rcases insertQty_keys_subset pb hpb2 with rfl | hmem
  · exact hlt pa hpa2
  · exact hsep pb hmem pa hpa2

theorem BookInv.addAskPassive {b : OrderBook} (h : BookInv b) {px : ℚ} {q : ℤ}
    (hq : 1 ≤ q) (hgt : ∀ pb ∈ b.bids.map Prod.fst, pb < px) :
    BookInv { b with asks := add_level b.asks px q } := by
  obtain ⟨hsb, hsa, hpb, hpa, hsep⟩ := h
  have hq0 : ¬ q ≤ 0 := by omega
  unfold add_level
  rw [if_neg hq0]
  refine ⟨hsb, insertQty_sorted hsa, hpb, insertQty_pos hpa hq, ?_⟩
  intro pb hpb2 pa hpa2
  rcases insertQty_keys_subset pa hpa2 with rfl | hmem
  · exact hgt pb hpb2
  · exact hsep pb hpb2 pa hmem

theorem apply_preserves_inv (b : OrderBook) (e : Event) (h : BookInv b) :
    BookInv (b.apply e).2 := by
  by_cases h0 : e.t.isNone ∨ e.quantity ≤ 0
  · simp only [OrderBook.apply, if_pos h0]
    exact h
  · have hq : 1 ≤ e.quantity := by
      rcases not_or.mp h0 with ⟨-, h2⟩
      omega
    cases htype : e.type with
    | Market =>
      cases hside : e.side with
      | Bid =>
        simp only [OrderBook.apply, if_neg h0, htype, hside]
        exact h.setAsks (consume_best_ask_keys_sublist b.asks e.quantity)
          (consume_best_ask_pos h.2.2.2.1)
      | Ask =>
        simp only [OrderBook.apply, if_neg h0, htype, hside]
        exact h.setBids (consume_best_bid_keys_sublist b.bids e.quantity)
          (consume_best_bid_pos h.2.2.1 e.quantity)
    | Cancel =>
      cases hpr : e.price with
      | none =>
        simp only [OrderBook.apply, if_neg h0, htype, hpr]
        exact h
      | some pr =>
        by_cases hp0 : pr ≤ 0
        · simp only [OrderBook.apply, if_neg h0, htype, hpr, if_pos hp0]
          exact h
        · cases hside : e.side with
          | Bid =>
            simp only [OrderBook.apply, if_neg h0, htype, hpr, if_neg hp0, hside]
            exact h.setBids (remove_level_qty_keys_sublist _ _ _)
              (remove_level_qty_pos h.2.2.1 _ _)
          | Ask =>
            simp only [OrderBook.apply, if_neg h0, htype, hpr, if_neg hp0, hside]
            exact h.setAsks (remove_level_qty_keys_sublist _ _ _)
              (remove_level_qty_pos h.2.2.2.1 _ _)
    | Add =>
      cases hpr : e.price with
      | none =>
        simp only [OrderBook.apply, if_neg h0, htype, hpr]
        exact h
      | some pr =>
        by_cases hp0 : pr ≤ 0
        · simp only [OrderBook.apply, if_neg h0, htype, hpr, if_pos hp0]
          exact h
        · cases hside : e.side with
          | Bid =>
            cases hask : (b.top).best_ask_price with
            | none =>
              simp only [OrderBook.apply, if_neg h0, htype, hpr, if_neg hp0, hside, hask]
              have hasks : b.asks = [] := by
                cases hA : b.asks with
                | nil => rfl
                | cons x xs =>
                  unfold OrderBook.top at hask
                  rw [hA] at hask
                  simp at hask
              refine h.addBidPassive hq ?_
              rw [hasks]
              intro pa hpa
              simp at hpa
            | some a =>
              by_cases hm : a ≤ b.round_to_tick pr
              · simp only [OrderBook.apply, if_neg h0, htype, hpr, if_neg hp0, hside, hask,
                  if_pos hm]
                exact h.setAsks (consume_best_ask_keys_sublist b.asks e.quantity)
                  (consume_best_ask_pos h.2.2.2.1)
              · simp only [OrderBook.apply, if_neg h0, htype, hpr, if_neg hp0, hside, hask,
                  if_neg hm]
                refine h.addBidPassive hq ?_
                intro pa hpa
                rcases List.mem_map.mp hpa with ⟨x, hx, rfl⟩
                have hh : ∃ lv, b.asks.head? = some lv ∧ lv.1 = a := by
                  unfold OrderBook.top at hask
                  cases hH : b.asks.head? with
                  | none => rw [hH] at hask; simp at hask
                  | some lv =>
                    rw [hH] at hask
                    simp at hask
                    exact ⟨lv, rfl, hask⟩
                rcases hh with ⟨lv, hlv, rfl⟩
                have hmin := head_min h.2.1 hlv x hx
                exact lt_of_lt_of_le (lt_of_not_le hm) hmin
          | Ask =>
            cases hbid : (b.top).best_bid_price with
            | none =>
              simp only [OrderBook.apply, if_neg h0, htype, hpr, if_neg hp0, hside, hbid]
              have hbids : b.bids = [] := by
                cases hB : b.bids with
                | nil => rfl
                | cons x xs =>
                  unfold OrderBook.top at hbid
                  rw [hB] at hbid
                  rcases Option.map_eq_none.mp hbid with hnone
                  exact absurd hnone (by rw [lastEntry_eq_none]; simp)
              refine h.addAskPassive hq ?_
              rw [hbids]
              intro pb hpb
              simp at hpb
            | some bb =>
              by_cases hm : b.round_to_tick pr ≤ bb
              · simp only [OrderBook.apply, if_neg h0, htype, hpr, if_neg hp0, hside, hbid,
                  if_pos hm]
                exact h.setBids (consume_best_bid_keys_sublist b.bids e.quantity)
                  (consume_best_bid_pos h.2.2.1 e.quantity)
              · simp only [OrderBook.apply, if_neg h0, htype, hpr, if_neg hp0, hside, hbid,
                  if_neg hm]
                refine h.addAskPassive hq ?_
                intro pb hpb
                rcases List.mem_map.mp hpb with ⟨x, hx, rfl⟩
                have hh : ∃ lv, lastEntry b.bids = some lv ∧ lv.1 = bb := by
                  unfold OrderBook.top at hbid
                  cases hH : lastEntry b.bids with
                  | none => rw [hH] at hbid; simp at hbid
                  | some lv =>
                    rw [hH] at hbid
                    simp at hbid
                    exact ⟨lv, rfl, hbid⟩
                rcases hh with ⟨lv, hlv, rfl⟩
                have hmax := lastEntry_max h.1 hlv x hx
                exact lt_of_le_of_lt hmax (lt_of_not_le hm)

theorem new_inv (tick : Option ℚ) : BookInv (OrderBook.new tick) := by
  refine ⟨?_, ?_, ?_, ?_, ?_⟩ <;> simp [OrderBook.new, keysSorted, levelsPos, sidesSeparated]

theorem applyEvents_inv (b : OrderBook) (es : List Event) (h : BookInv b) :
    BookInv (applyEvents b es) := by
  induction es generalizing b with
  | nil => exact h
  | cons e es ih => exact ih _ (apply_preserves_inv b e h)

/-! ### Conservation and order of Market consumption -/

theorem totalQty_cons (p : ℚ) (v : ℤ) (rest : SideMap) :
    totalQty ((p, v) :: rest) = v + totalQty rest := by
  simp [totalQty]

theorem totalQty_nonneg : ∀ {m : SideMap}, levelsPos m → 0 ≤ totalQty m
  | [], _ => by simp [totalQty]
  | (p, v) :: rest, hv => by
    have h1 : 1 ≤ v := hv (p, v) (by simp)
    have h2 := totalQty_nonneg (fun x hx => hv x (List.mem_cons_of_mem _ hx))
    rw [totalQty_cons]
    omega

theorem consume_best_ask_of_nonpos : ∀ {m : SideMap} {q : ℤ}, q ≤ 0 →
    consume_best_ask m q = m
  | [], q, _ => rfl
  | (px, av) :: rest, q, h => by
    unfold consume_best_ask
    rw [if_pos h]

theorem consume_best_ask_total : ∀ {m : SideMap}, levelsPos m → ∀ {q : ℤ}, 0 < q →
    totalQty (consume_best_ask m q) = totalQty m - min q (totalQty m)
  | [], _, q, hq => by
    simp [consume_best_ask, totalQty]
    omega
  | (px, av) :: rest, hv, q, hq => by
    have hav : 1 ≤ av := hv (px, av) (by simp)
    have hrest : levelsPos rest := fun x hx => hv x (List.mem_cons_of_mem _ hx)
    have hT : 0 ≤ totalQty rest := totalQty_nonneg hrest
    unfold consume_best_ask
    rw [if_neg (by omega : ¬ q ≤ 0)]
    by_cases h2 : q < av
    · rw [if_pos h2, totalQty_cons, totalQty_cons]
      omega
    · rw [if_neg h2]
      by_cases h3 : q - av = 0
      · rw [h3, consume_best_ask_of_nonpos (le_refl 0), totalQty_cons]
        omega
      · have ih := consume_best_ask_total hrest (q := q - av) (by omega)
        rw [ih, totalQty_cons]
        omega

theorem consume_best_ask_bestFirst : ∀ {m : SideMap}, levelsPos m → ∀ {q : ℤ}, 0 < q →
    consumedBestFirst m q (consume_best_ask m q)
  | [], _, q, hq => by
    refine ⟨0, Or.inl ⟨rfl, ?_⟩⟩
    simp [totalQty]
    omega
  | (px, av) :: rest, hv, q, hq => by
    have hav : 1 ≤ av := hv (px, av) (by simp)
    have hrest : levelsPos rest := fun x hx => hv x (List.mem_cons_of_mem _ hx)
    unfold consume_best_ask
    rw [if_neg (by omega : ¬ q ≤ 0)]
    by_cases h2 : q < av
    · rw [if_pos h2]
      refine ⟨0, Or.inr ⟨px, av, rest, rfl, ?_, ?_, ?_⟩⟩
      · simp [totalQty]
      · simpa [totalQty] using hq
      · simp [totalQty]
        omega
    · rw [if_neg h2]
      by_cases h3 : q - av = 0
      · rw [h3, consume_best_ask_of_nonpos (le_refl 0)]
        refine ⟨1, Or.inl ⟨rfl, ?_⟩⟩
        simp [totalQty]
        omega
      · rcases consume_best_ask_bestFirst hrest (q := q - av) (by omega) with ⟨k, hk⟩
        refine ⟨k + 1, ?_⟩
        rcases hk with ⟨hr, hle⟩ | ⟨px2, av2, rest2, hdrop, hr, hlt, hres⟩
        · exact Or.inl ⟨by simpa using hr, by rw [List.take_succ_cons, totalQty_cons]; omega⟩
        · refine Or.inr ⟨px2, av2, rest2, by simpa using hdrop, ?_, ?_, ?_⟩
          · rw [List.take_succ_cons, totalQty_cons]
            have : q - (av + totalQty (rest.take k)) = q - av - totalQty (rest.take k) := by
              omega
            rw [this]
            exact hr
          · rw [List.take_succ_cons, totalQty_cons]
            omega
          · rw [List.take_succ_cons, totalQty_cons]
            omega

/-! ### `findQty` and cancellation -/

theorem findQty_eq_none_of_not_mem : ∀ {m : SideMap} {px : ℚ},
    px ∉ m.map Prod.fst → findQty m px = none
  | [], px, _ => rfl
  | (p, v) :: rest, px, h => by
    have hne : p ≠ px := by
      intro hc
      exact h (by simp [hc])
    unfold findQty
    rw [if_neg hne]
    exact findQty_eq_none_of_not_mem (fun hc => h (by simp [hc]))

theorem keysSorted_nodup {m : SideMap} (hs : keysSorted m) : (m.map Prod.fst).Nodup :=
  hs.imp ne_of_lt

theorem removeGo_absent : ∀ {m : SideMap} {px : ℚ}, findQty m px = none →
    ∀ {q : ℤ}, removeGo m px q = m
  | [], px, _, q => rfl
  | (p, v) :: rest, px, hf, q => by
    simp only [findQty] at hf
    have h1 : p ≠ px := by
      intro hc
      rw [if_pos hc] at hf
      exact Option.noConfusion hf
    rw [if_neg h1] at hf
    simp only [removeGo]
    rw [if_neg h1, removeGo_absent hf]

theorem findQty_removeGo_found : ∀ {m : SideMap}, (m.map Prod.fst).Nodup →
    ∀ {px : ℚ} {v q : ℤ}, findQty m px = some v →
    findQty (removeGo m px q) px = (if v - q ≤ 0 then none else some (v - q))
  | [], _, px, v, q, hf => Option.noConfusion hf
  | (p, v2) :: rest, hnd, px, v, q, hf => by
    rw [List.map_cons, List.nodup_cons] at hnd
    simp only [findQty] at hf
    by_cases h1 : p = px
    · subst h1
      rw [if_pos rfl] at hf
      have hv : v2 = v := Option.some_injective _ hf
      subst hv
      simp only [removeGo]
      rw [if_pos trivial]
      by_cases h2 : v2 - q ≤ 0
      · rw [if_pos h2, if_pos h2]
        exact findQty_eq_none_of_not_mem hnd.1
      · rw [if_neg h2, if_neg h2]
        simp only [findQty]
        rw [if_pos trivial]
    · rw [if_neg h1] at hf
      simp only [removeGo]
      rw [if_neg h1]
      simp only [findQty]
      rw [if_neg h1]
      exact findQty_removeGo_found hnd.2 hf

theorem findQty_removeGo_other : ∀ {m : SideMap} {px k : ℚ}, k ≠ px → ∀ {q : ℤ},
    findQty (removeGo m px q) k = findQty m k
  | [], px, k, _, q => rfl
  | (p, v) :: rest, px, k, hk, q => by
    by_cases h1 : p = px
    · subst h1
      simp only [removeGo]
      rw [if_pos trivial]
      have hne : p ≠ k := fun hc => hk hc.symm
      by_cases h2 : v - q ≤ 0
      · rw [if_pos h2]
        simp only [findQty]
        rw [if_neg hne]
      · rw [if_neg h2]
        simp only [findQty]
        rw [if_neg hne, if_neg hne]
    · simp only [removeGo]
      rw [if_neg h1]
      simp only [findQty]
      by_cases h2 : p = k
      · rw [if_pos h2, if_pos h2]
      · rw [if_neg h2, if_neg h2]
        exact findQty_removeGo_other hk

/-! ### Branch equations for `OrderBook.apply` -/

theorem apply_precond_fail {b : OrderBook} {e : Event}
    (h : e.t.isNone ∨ e.quantity ≤ 0) : b.apply e = (false, b) := by
  simp only [OrderBook.apply, if_pos h]

theorem apply_add_noprice {b : OrderBook} {e : Event}
    (h0 : ¬ (e.t.isNone ∨ e.quantity ≤ 0)) (htype : e.type = EventType.Add)
    (hpr : e.price = none) : b.apply e = (false, b) := by
  simp only [OrderBook.apply, if_neg h0, htype, hpr]

theorem apply_cancel_noprice {b : OrderBook} {e : Event}
    (h0 : ¬ (e.t.isNone ∨ e.quantity ≤ 0)) (htype : e.type = EventType.Cancel)
    (hpr : e.price = none) : b.apply e = (false, b) := by
  simp only [OrderBook.apply, if_neg h0, htype, hpr]

theorem apply_add_badprice {b : OrderBook} {e : Event} {pr : ℚ}
    (h0 : ¬ (e.t.isNone ∨ e.quantity ≤ 0)) (htype : e.type = EventType.Add)
    (hpr : e.price = some pr) (hp0 : pr ≤ 0) : b.apply e = (false, b) := by
  simp only [OrderBook.apply, if_neg h0, htype, hpr, if_pos hp0]

theorem apply_cancel_badprice {b : OrderBook} {e : Event} {pr : ℚ}
    (h0 : ¬ (e.t.isNone ∨ e.quantity ≤ 0)) (htype : e.type = EventType.Cancel)
    (hpr : e.price = some pr) (hp0 : pr ≤ 0) : b.apply e = (false, b) := by
  simp only [OrderBook.apply, if_neg h0, htype, hpr, if_pos hp0]

theorem apply_cancel_bid {b : OrderBook} {e : Event} {pr : ℚ}
    (h0 : ¬ (e.t.isNone ∨ e.quantity ≤ 0)) (htype : e.type = EventType.Cancel)
    (hpr : e.price = some pr) (hp0 : ¬ pr ≤ 0) (hside : e.side = Side.Bid) :
    b.apply e =
      (true, { b with bids := remove_level_qty b.bids (b.round_to_tick pr) e.quantity }) := by
  simp only [OrderBook.apply, if_neg h0, htype, hpr, if_neg hp0, hside]

theorem apply_cancel_ask {b : OrderBook} {e : Event} {pr : ℚ}
    (h0 : ¬ (e.t.isNone ∨ e.quantity ≤ 0)) (htype : e.type = EventType.Cancel)
    (hpr : e.price = some pr) (hp0 : ¬ pr ≤ 0) (hside : e.side = Side.Ask) :
    b.apply e =
      (true, { b with asks := remove_level_qty b.asks (b.round_to_tick pr) e.quantity }) := by
  simp only [OrderBook.apply, if_neg h0, htype, hpr, if_neg hp0, hside]

theorem apply_market_bid {b : OrderBook} {e : Event}
    (h0 : ¬ (e.t.isNone ∨ e.quantity ≤ 0)) (htype : e.type = EventType.Market)
    (hside : e.side = Side.Bid) :
    b.apply e = (true, { b with asks := consume_best_ask b.asks e.quantity }) := by
  simp only [OrderBook.apply, if_neg h0, htype, hside]

theorem apply_market_ask {b : OrderBook} {e : Event}
    (h0 : ¬ (e.t.isNone ∨ e.quantity ≤ 0)) (htype : e.type = EventType.Market)
    (hside : e.side = Side.Ask) :
    b.apply e = (true, { b with bids := consume_best_bid b.bids e.quantity }) := by
  simp only [OrderBook.apply, if_neg h0, htype, hside]

theorem apply_add_bid_mkt {b : OrderBook} {e : Event} {pr a : ℚ}
    (h0 : ¬ (e.t.isNone ∨ e.quantity ≤ 0)) (htype : e.type = EventType.Add)
    (hpr : e.price = some pr) (hp0 : ¬ pr ≤ 0) (hside : e.side = Side.Bid)
    (hask : (b.top).best_ask_price = some a) (hm : a ≤ b.round_to_tick pr) :
    b.apply e = (true, { b with asks := consume_best_ask b.asks e.quantity }) := by
  simp only [OrderBook.apply, if_neg h0, htype, hpr, if_neg hp0, hside, hask, if_pos hm]

theorem apply_add_bid_passive {b : OrderBook} {e : Event} {pr a : ℚ}
    (h0 : ¬ (e.t.isNone ∨ e.quantity ≤ 0)) (htype : e.type = EventType.Add)
    (hpr : e.price = some pr) (hp0 : ¬ pr ≤ 0) (hside : e.side = Side.Bid)
    (hask : (b.top).best_ask_price = some a) (hm : ¬ a ≤ b.round_to_tick pr) :
    b.apply e =
      (true, { b with bids := add_level b.bids (b.round_to_tick pr) e.quantity }) := by
  simp only [OrderBook.apply, if_neg h0, htype, hpr, if_neg hp0, hside, hask, if_neg hm]

theorem apply_add_bid_noask {b : OrderBook} {e : Event} {pr : ℚ}
    (h0 : ¬ (e.t.isNone ∨ e.quantity ≤ 0)) (htype : e.type = EventType.Add)
    (hpr : e.price = some pr) (hp0 : ¬ pr ≤ 0) (hside : e.side = Side.Bid)
    (hask : (b.top).best_ask_price = none) :
    b.apply e =
      (true, { b with bids := add_level b.bids (b.round_to_tick pr) e.quantity }) := by
  simp only [OrderBook.apply, if_neg h0, htype, hpr, if_neg hp0, hside, hask]

theorem apply_add_ask_mkt {b : OrderBook} {e : Event} {pr a : ℚ}
    (h0 : ¬ (e.t.isNone ∨ e.quantity ≤ 0)) (htype : e.type = EventType.Add)
    (hpr : e.price = some pr) (hp0 : ¬ pr ≤ 0) (hside : e.side = Side.Ask)
    (hbid : (b.top).best_bid_price = some a) (hm : b.round_to_tick pr ≤ a) :
    b.apply e = (true, { b with bids := consume_best_bid b.bids e.quantity }) := by
  simp only [OrderBook.apply, if_neg h0, htype, hpr, if_neg hp0, hside, hbid, if_pos hm]

theorem apply_add_ask_passive {b : OrderBook} {e : Event} {pr a : ℚ}
    (h0 : ¬ (e.t.isNone ∨ e.quantity ≤ 0)) (htype : e.type = EventType.Add)
    (hpr : e.price = some pr) (hp0 : ¬ pr ≤ 0) (hside : e.side = Side.Ask)
    (hbid : (b.top).best_bid_price = some a) (hm : ¬ b.round_to_tick pr ≤ a) :
    b.apply e =
      (true, { b with asks := add_level b.asks (b.round_to_tick pr) e.quantity }) := by
  simp only [OrderBook.apply, if_neg h0, htype, hpr, if_neg hp0, hside, hbid, if_neg hm]

theorem apply_add_ask_nobid {b : OrderBook} {e : Event} {pr : ℚ}
    (h0 : ¬ (e.t.isNone ∨ e.quantity ≤ 0)) (htype : e.type = EventType.Add)
    (hpr : e.price = some pr) (hp0 : ¬ pr ≤ 0) (hside : e.side = Side.Ask)
    (hbid : (b.top).best_bid_price = none) :
    b.apply e =
      (true, { b with asks := add_level b.asks (b.round_to_tick pr) e.quantity }) := by
  simp only [OrderBook.apply, if_neg h0, htype, hpr, if_neg hp0, hside, hbid]

/-! ### Claim theorems -/

/-- C4: `OrderBook::apply` returns `false` if and only if the event time is
non-finite, or the quantity is non-positive, or the event is an `Add` or a
`Cancel` whose price is non-finite or non-positive (a `Market` price is never
checked); and whenever it returns `false` the book is exactly unchanged. -/
theorem C4_apply_false_iff (b : OrderBook) (e : Event) :
    ((b.apply e).1 = false ↔
      (e.t.isNone ∨ e.quantity ≤ 0 ∨
        ((e.type = EventType.Add ∨ e.type = EventType.Cancel) ∧
          ∀ p ∈ e.price, p ≤ 0))) ∧
    ((b.apply e).1 = false → (b.apply e).2 = b) := by
  by_cases h0 : e.t.isNone ∨ e.quantity ≤ 0
  · rw [apply_precond_fail h0]
    refine ⟨iff_of_true rfl ?_, fun _ => rfl⟩
    rcases h0 with h | h
    · exact Or.inl h
    · exact Or.inr (Or.inl h)
  · have hno := not_or.mp h0
    cases htype : e.type with
    | Market =>
      have hres : b.apply e = (true, (b.apply e).2) := by
        cases hside : e.side with
        | Bid => rw [apply_market_bid h0 htype hside]
        | Ask => rw [apply_market_ask h0 htype hside]
      rw [hres]
      refine ⟨iff_of_false (by simp) ?_, by simp⟩
      intro hc
      rcases hc with h | h | ⟨htc, -⟩
      · exact hno.1 h
      · exact hno.2 h
      · rcases htc with h | h <;> exact EventType.noConfusion h
    | Cancel =>
      cases hpr : e.price with
      | none =>
        rw [apply_cancel_noprice h0 htype hpr]
        refine ⟨iff_of_true rfl ?_, fun _ => rfl⟩
        exact Or.inr (Or.inr ⟨Or.inr rfl, by simp⟩)
      | some pr =>
        by_cases hp0 : pr ≤ 0
        · rw [apply_cancel_badprice h0 htype hpr hp0]
          refine ⟨iff_of_true rfl ?_, fun _ => rfl⟩
          refine Or.inr (Or.inr ⟨Or.inr rfl, ?_⟩)
          intro p hp
          simp at hp
          rw [← hp]
          exact hp0
        · have hres : b.apply e = (true, (b.apply e).2) := by
            cases hside : e.side with
            | Bid => rw [apply_cancel_bid h0 htype hpr hp0 hside]
            | Ask => rw [apply_cancel_ask h0 htype hpr hp0 hside]
          rw [hres]
          refine ⟨iff_of_false (by simp) ?_, by simp⟩
          intro hc
          rcases hc with h | h | ⟨-, hpc⟩
          · exact hno.1 h
          · exact hno.2 h
          · exact hp0 (hpc pr rfl)
    | Add =>
      cases hpr : e.price with
      | none =>
        rw [apply_add_noprice h0 htype hpr]
        refine ⟨iff_of_true rfl ?_, fun _ => rfl⟩
        exact Or.inr (Or.inr ⟨Or.inl rfl, by simp⟩)
      | some pr =>
        by_cases hp0 : pr ≤ 0
        · rw [apply_add_badprice h0 htype hpr hp0]
          refine ⟨iff_of_true rfl ?_, fun _ => rfl⟩
          refine Or.inr (Or.inr ⟨Or.inl rfl, ?_⟩)
          intro p hp
          simp at hp
          rw [← hp]
          exact hp0
        · have hres : b.apply e = (true, (b.apply e).2) := by
            cases hside : e.side with
            | Bid =>
              cases hask : (b.top).best_ask_price with
              | none => rw [apply_add_bid_noask h0 htype hpr hp0 hside hask]
              | some a =>
                by_cases hm : a ≤ b.round_to_tick pr
                · rw [apply_add_bid_mkt h0 htype hpr hp0 hside hask hm]
                · rw [apply_add_bid_passive h0 htype hpr hp0 hside hask hm]
            | Ask =>
              cases hbid : (b.top).best_bid_price with
              | none => rw [apply_add_ask_nobid h0 htype hpr hp0 hside hbid]
              | some bb =>
                by_cases hm : b.round_to_tick pr ≤ bb
                · rw [apply_add_ask_mkt h0 htype hpr hp0 hside hbid hm]
                · rw [apply_add_ask_passive h0 htype hpr hp0 hside hbid hm]
          rw [hres]
          refine ⟨iff_of_false (by simp) ?_, by simp⟩
          intro hc
          rcases hc with h | h | ⟨-, hpc⟩
          · exact hno.1 h
          · exact hno.2 h
          · exact hp0 (hpc pr rfl)

theorem totalQty_reverse (m : SideMap) : totalQty m.reverse = totalQty m := by
  simp [totalQty, List.sum_reverse]

theorem levelsPos_reverse {m : SideMap} (h : levelsPos m) : levelsPos m.reverse := by
  intro lv hlv
  exact h lv (List.mem_reverse.mp hlv)

/-- C5: a `Market` event with finite time and positive quantity `q` removes
exactly `min q D` units from the opposite side, where `D` is that side's
total depth, consuming levels strictly best-price-first (erasing depleted
levels, keeping the residual of a partially consumed one) and leaving the
aggressor's own side untouched. -/
theorem C5_market_conservation (b : OrderBook) (e : Event)
    (hb : levelsPos b.bids) (ha : levelsPos b.asks)
    (ht : e.t.isSome) (hq : 0 < e.quantity) (hm : e.type = EventType.Market) :
    (b.apply e).1 = true ∧
    (e.side = Side.Bid →
      (b.apply e).2.bids = b.bids ∧
      totalQty (b.apply e).2.asks = totalQty b.asks - min e.quantity (totalQty b.asks) ∧
      consumedBestFirst b.asks e.quantity ((b.apply e).2.asks)) ∧
    (e.side = Side.Ask →
      (b.apply e).2.asks = b.asks ∧
      totalQty (b.apply e).2.bids = totalQty b.bids - min e.quantity (totalQty b.bids) ∧
      consumedBestFirst b.bids.reverse e.quantity (((b.apply e).2.bids).reverse)) := by
  have h0 : ¬ (e.t.isNone ∨ e.quantity ≤ 0) := by
    rintro (hc | hc)
    · rw [Option.isNone_iff_eq_none] at hc
      rw [hc] at ht
      simp at ht
    · omega
  cases hside : e.side with
  | Bid =>
    rw [apply_market_bid h0 hm hside]
    refine ⟨rfl, fun _ => ⟨rfl, ?_, ?_⟩, fun hc => Side.noConfusion hc⟩
    · exact consume_best_ask_total ha hq
    · exact consume_best_ask_bestFirst ha hq
  | Ask =>
    rw [apply_market_ask h0 hm hside]
    refine ⟨rfl, fun hc => Side.noConfusion hc, fun _ => ⟨rfl, ?_, ?_⟩⟩
    · show totalQty (consume_best_bid b.bids e.quantity) = _
      unfold consume_best_bid
      rw [totalQty_reverse, consume_best_ask_total (levelsPos_reverse hb) hq,
        totalQty_reverse]
    · show consumedBestFirst b.bids.reverse e.quantity
        ((consume_best_bid b.bids e.quantity).reverse)
      unfold consume_best_bid
      rw [List.reverse_reverse]
      exact consume_best_ask_bestFirst (levelsPos_reverse hb) hq

/-- C7: a `Cancel` with finite time, positive quantity and finite positive
price always reports `true`; when the snapped price exists on the event's
own side, that level is reduced by the quantity and erased if the result is
not positive (the stored quantity never goes negative); other levels and
the opposite side are untouched; when the level is absent the whole book is
unchanged and `apply` still reports `true`. -/
theorem C7_cancel_saturating (b : OrderBook) (e : Event) (pr : ℚ)
    (hsb : keysSorted b.bids) (hsa : keysSorted b.asks)
    (ht : e.t.isSome) (hq : 0 < e.quantity) (hpr : e.price = some pr) (hp0 : 0 < pr)
    (hc : e.type = EventType.Cancel) :
    (b.apply e).1 = true ∧
    (e.side = Side.Bid →
      (b.apply e).2.asks = b.asks ∧
      (findQty b.bids (b.round_to_tick pr) = none → (b.apply e).2 = b) ∧
      (∀ v, findQty b.bids (b.round_to_tick pr) = some v →
        findQty (b.apply e).2.bids (b.round_to_tick pr) =
          (if v - e.quantity ≤ 0 then none else some (v - e.quantity)) ∧
        ∀ k, k ≠ b.round_to_tick pr → findQty (b.apply e).2.bids k = findQty b.bids k)) ∧
    (e.side = Side.Ask →
      (b.apply e).2.bids = b.bids ∧
      (findQty b.asks (b.round_to_tick pr) = none → (b.apply e).2 = b) ∧
      (∀ v, findQty b.asks (b.round_to_tick pr) = some v →
        findQty (b.apply e).2.asks (b.round_to_tick pr) =
          (if v - e.quantity ≤ 0 then none else some (v - e.quantity)) ∧
        ∀ k, k ≠ b.round_to_tick pr → findQty (b.apply e).2.asks k = findQty b.asks k)) := by
  have h0 : ¬ (e.t.isNone ∨ e.quantity ≤ 0) := by
    rintro (hx | hx)
    · rw [Option.isNone_iff_eq_none] at hx
      rw [hx] at ht
      simp at ht
    · omega
  have hp0n : ¬ pr ≤ 0 := not_le.mpr hp0
  have hqn : ¬ e.quantity ≤ 0 := by omega
  cases hside : e.side with
  | Bid =>
    rw [apply_cancel_bid h0 hc hpr hp0n hside]
    refine ⟨rfl, fun _ => ⟨rfl, ?_, ?_⟩, fun hx => Side.noConfusion hx⟩
    · intro hnone
      show ({ b with bids := remove_level_qty b.bids (b.round_to_tick pr) e.quantity }
          : OrderBook) = b
      unfold remove_level_qty
      rw [if_neg hqn, removeGo_absent hnone]
    · intro v hv
      constructor
      · show findQty (remove_level_qty b.bids (b.round_to_tick pr) e.quantity) _ = _
        unfold remove_level_qty
        rw [if_neg hqn]
        exact findQty_removeGo_found (keysSorted_nodup hsb) hv
      · intro k hk
        show findQty (remove_level_qty b.bids (b.round_to_tick pr) e.quantity) k = _
        unfold remove_level_qty
        rw [if_neg hqn]
        exact findQty_removeGo_other hk
  | Ask =>
    rw [apply_cancel_ask h0 hc hpr hp0n hside]
    refine ⟨rfl, fun hx => Side.noConfusion hx, fun _ => ⟨rfl, ?_, ?_⟩⟩
    · intro hnone
      show ({ b with asks := remove_level_qty b.asks (b.round_to_tick pr) e.quantity }
          : OrderBook) = b
      unfold remove_level_qty
      rw [if_neg hqn, removeGo_absent hnone]
    · intro v hv
      constructor
      · show findQty (remove_level_qty b.asks (b.round_to_tick pr) e.quantity) _ = _
        unfold remove_level_qty
        rw [if_neg hqn]
        exact findQty_removeGo_found (keysSorted_nodup hsa) hv
      · intro k hk
        show findQty (remove_level_qty b.asks (b.round_to_tick pr) e.quantity) k = _
        unfold remove_level_qty
        rw [if_neg hqn]
        exact findQty_removeGo_other hk

theorem head?_mem {m : SideMap} {lv : ℚ × ℤ} (h : m.head? = some lv) : lv ∈ m := by
  cases m with
  | nil => simp at h
  | cons a rest =>
    have : a = lv := by simpa using h
    simp [this]

/-- C8: `metrics` returns `mid`, `spread` and `imbalance` all present exactly
when both sides are non-empty; when present, `mid = (best_bid + best_ask)/2`,
`spread = best_ask - best_bid` and `imbalance = (qb - qa)/(qb + qa)` for the
best-level quantities; with an empty side all three are absent.  (The
positivity hypotheses hold in every reachable book, by C1.) -/
theorem C8_metrics (b : OrderBook) (hb : levelsPos b.bids) (ha : levelsPos b.asks) :
    ((b.metrics).mid.isSome ↔ (b.bids ≠ [] ∧ b.asks ≠ [])) ∧
    ((b.metrics).spread.isSome ↔ (b.bids ≠ [] ∧ b.asks ≠ [])) ∧
    ((b.metrics).imbalance_top1.isSome ↔ (b.bids ≠ [] ∧ b.asks ≠ [])) ∧
    (∀ pb ∈ (b.top).best_bid_price, ∀ pa ∈ (b.top).best_ask_price,
      (b.metrics).mid = some ((pb + pa) / 2) ∧ (b.metrics).spread = some (pa - pb)) ∧
    (∀ qb ∈ (b.top).best_bid_qty, ∀ qa ∈ (b.top).best_ask_qty,
      (b.metrics).imbalance_top1 = some (((qb : ℚ) - (qa : ℚ)) / ((qb : ℚ) + (qa : ℚ)))) := by
  cases hB : lastEntry b.bids with
  | none =>
    have hbids : b.bids = [] := lastEntry_eq_none.mp hB
    have hmet : b.metrics = ⟨none, none, none⟩ := by
      unfold OrderBook.metrics OrderBook.top
      rw [hB]
      rfl
    refine ⟨?_, ?_, ?_, ?_, ?_⟩
    · rw [hmet]; simp [hbids]
    · rw [hmet]; simp [hbids]
    · rw [hmet]; simp [hbids]
    · intro pb hpb
      unfold OrderBook.top at hpb
      rw [hB] at hpb
      simp at hpb
    · intro qb hqb
      unfold OrderBook.top at hqb
      rw [hB] at hqb
      simp at hqb
  | some lvb =>
    cases hA : b.asks.head? with
    | none =>
      have hasks : b.asks = [] := by
        cases hx : b.asks with
        | nil => rfl
        | cons a rest => rw [hx] at hA; simp at hA
      have hmet : b.metrics = ⟨none, none, none⟩ := by
        unfold OrderBook.metrics OrderBook.top
        rw [hB, hA]
        rfl
      refine ⟨?_, ?_, ?_, ?_, ?_⟩
      · rw [hmet]; simp [hasks]
      · rw [hmet]; simp [hasks]
      · rw [hmet]; simp [hasks]
      · intro pb hpb pa hpa
        unfold OrderBook.top at hpa
        rw [hA] at hpa
        simp at hpa
      · intro qb hqb qa hqa
        unfold OrderBook.top at hqa
        rw [hA] at hqa
        simp at hqa
    | some lva =>
      have hbne : b.bids ≠ [] := by
        intro hc
        rw [hc] at hB
        simp [lastEntry] at hB
      have hane : b.asks ≠ [] := by
        intro hc
        rw [hc] at hA
        simp at hA
      have hqb : 1 ≤ lvb.2 := hb lvb (lastEntry_mem hB)
      have hqa : 1 ≤ lva.2 := ha lva (head?_mem hA)
      have hdq : (0 : ℚ) < (lvb.2 : ℚ) + (lva.2 : ℚ) := by
        have hz : (0 : ℤ) < lvb.2 + lva.2 := by omega
        exact_mod_cast hz
      have hmet : b.metrics =
          ⟨some (0.5 * (lvb.1 + lva.1)), some (lva.1 - lvb.1),
            some (((lvb.2 : ℚ) - (lva.2 : ℚ)) / ((lvb.2 : ℚ) + (lva.2 : ℚ)))⟩ := by
        unfold OrderBook.metrics OrderBook.top
        rw [hB, hA]
        simp only [Option.map_some']
        rw [if_pos hdq]
      refine ⟨?_, ?_, ?_, ?_, ?_⟩
      · rw [hmet]; simp [hbne, hane]
      · rw [hmet]; simp [hbne, hane]
      · rw [hmet]; simp [hbne, hane]
      · intro pb hpb pa hpa
        unfold OrderBook.top at hpb hpa
        rw [hB] at hpb
        rw [hA] at hpa
        simp at hpb hpa
        subst hpb
        subst hpa
        rw [hmet]
        constructor
        · show some (0.5 * (lvb.1 + lva.1)) = some ((lvb.1 + lva.1) / 2)
          congr 1
          rw [eq_div_iff (two_ne_zero)]
          ring
        · show some (lva.1 - lvb.1) = some (lva.1 - lvb.1)
          rfl
      · intro qb hqb qa hqa
        unfold OrderBook.top at hqb hqa
        rw [hB] at hqb
        rw [hA] at hqa
        simp at hqb hqa
        subst hqb
        subst hqa
        rw [hmet]

/-- C10: `apply` never changes the tick size; a `Cancel` leaves the opposite
side untouched; a non-marketable (passive) `Add` leaves the opposite side
untouched; and the opposite side can only change under a `Market` event or a
marketable `Add` (one whose snapped price reaches the opposite best). -/
theorem C10_frame (b : OrderBook) (e : Event) :
    (b.apply e).2.tick_size = b.tick_size ∧
    (e.type = EventType.Cancel →
      (e.side = Side.Bid → (b.apply e).2.asks = b.asks) ∧
      (e.side = Side.Ask → (b.apply e).2.bids = b.bids)) ∧
    (e.type = EventType.Add →
      (e.side = Side.Bid →
        ∀ pr ∈ e.price, (∀ a ∈ (b.top).best_ask_price, ¬ a ≤ b.round_to_tick pr) →
          (b.apply e).2.asks = b.asks) ∧
      (e.side = Side.Ask →
        ∀ pr ∈ e.price, (∀ bb ∈ (b.top).best_bid_price, ¬ b.round_to_tick pr ≤ bb) →
          (b.apply e).2.bids = b.bids)) ∧
    ((b.apply e).2.asks ≠ b.asks → e.side = Side.Bid →
      e.type = EventType.Market ∨
        (e.type = EventType.Add ∧ ∃ pr ∈ e.price, ∃ a ∈ (b.top).best_ask_price,
          a ≤ b.round_to_tick pr)) ∧
    ((b.apply e).2.bids ≠ b.bids → e.side = Side.Ask →
      e.type = EventType.Market ∨
        (e.type = EventType.Add ∧ ∃ pr ∈ e.price, ∃ bb ∈ (b.top).best_bid_price,
          b.round_to_tick pr ≤ bb)) := by
  by_cases h0 : e.t.isNone ∨ e.quantity ≤ 0
  · rw [apply_precond_fail h0]
    exact ⟨rfl, fun _ => ⟨fun _ => rfl, fun _ => rfl⟩,
      fun _ => ⟨fun _ pr _ _ => rfl, fun _ pr _ _ => rfl⟩,
      fun hne => absurd rfl hne, fun hne => absurd rfl hne⟩
  · cases htype : e.type with
    | Market =>
      cases hside : e.side with
      | Bid =>
        rw [apply_market_bid h0 htype hside]
        exact ⟨rfl, fun hc => EventType.noConfusion hc,
          fun hc => EventType.noConfusion hc,
          fun _ _ => Or.inl rfl, fun hne _ => absurd rfl hne⟩
      | Ask =>
        rw [apply_market_ask h0 htype hside]
        exact ⟨rfl, fun hc => EventType.noConfusion hc,
          fun hc => EventType.noConfusion hc,
          fun hne _ => absurd rfl hne, fun _ _ => Or.inl rfl⟩
    | Cancel =>
      cases hpr : e.price with
      | none =>
        rw [apply_cancel_noprice h0 htype hpr]
        exact ⟨rfl, fun _ => ⟨fun _ => rfl, fun _ => rfl⟩,
          fun hc => EventType.noConfusion hc,
          fun hne => absurd rfl hne, fun hne => absurd rfl hne⟩
      | some pr =>
        by_cases hp0 : pr ≤ 0
        · rw [apply_cancel_badprice h0 htype hpr hp0]
          exact ⟨rfl, fun _ => ⟨fun _ => rfl, fun _ => rfl⟩,
            fun hc => EventType.noConfusion hc,
            fun hne => absurd rfl hne, fun hne => absurd rfl hne⟩
        · cases hside : e.side with
          | Bid =>
            rw [apply_cancel_bid h0 htype hpr hp0 hside]
            exact ⟨rfl, fun _ => ⟨fun _ => rfl, fun hc => Side.noConfusion hc⟩,
              fun hc => EventType.noConfusion hc,
              fun hne _ => absurd rfl hne, fun _ hc => Side.noConfusion hc⟩
          | Ask =>
            rw [apply_cancel_ask h0 htype hpr hp0 hside]
            exact ⟨rfl, fun _ => ⟨fun hc => Side.noConfusion hc, fun _ => rfl⟩,
              fun hc => EventType.noConfusion hc,
              fun _ hc => Side.noConfusion hc, fun hne _ => absurd rfl hne⟩
    | Add =>
      cases hpr : e.price with
      | none =>
        rw [apply_add_noprice h0 htype hpr]
        exact ⟨rfl, fun hc => EventType.noConfusion hc,
          fun _ => ⟨fun _ pr hc => absurd hc (by simp), fun _ pr hc => absurd hc (by simp)⟩,
          fun hne => absurd rfl hne, fun hne => absurd rfl hne⟩
      | some pr =>
        by_cases hp0 : pr ≤ 0
        · rw [apply_add_badprice h0 htype hpr hp0]
          exact ⟨rfl, fun hc => EventType.noConfusion hc,
            fun _ => ⟨fun _ pr2 _ _ => rfl, fun _ pr2 _ _ => rfl⟩,
            fun hne => absurd rfl hne, fun hne => absurd rfl hne⟩
        · cases hside : e.side with
          | Bid =>
            cases hask : (b.top).best_ask_price with
            | none =>
              rw [apply_add_bid_noask h0 htype hpr hp0 hside hask]
              exact ⟨rfl, fun hc => EventType.noConfusion hc,
                fun _ => ⟨fun _ pr2 _ _ => rfl, fun hc => Side.noConfusion hc⟩,
                fun hne _ => absurd rfl hne, fun _ hc => Side.noConfusion hc⟩
            | some a =>
              by_cases hm : a ≤ b.round_to_tick pr
              · rw [apply_add_bid_mkt h0 htype hpr hp0 hside hask hm]
                refine ⟨rfl, fun hc => EventType.noConfusion hc,
                  fun _ => ⟨?_, fun hc => Side.noConfusion hc⟩,
                  fun _ _ => Or.inr ⟨rfl, pr, rfl, a, rfl, hm⟩,
                  fun _ hc => Side.noConfusion hc⟩
                intro _ pr2 hpr2 hno
                have hpr2e : pr = pr2 := by simpa using hpr2
                subst hpr2e
                exact absurd hm (hno a rfl)
              · rw [apply_add_bid_passive h0 htype hpr hp0 hside hask hm]
                exact ⟨rfl, fun hc => EventType.noConfusion hc,
                  fun _ => ⟨fun _ pr2 _ _ => rfl, fun hc => Side.noConfusion hc⟩,
                  fun hne _ => absurd rfl hne, fun _ hc => Side.noConfusion hc⟩
          | Ask =>
            cases hbid : (b.top).best_bid_price with
            | none =>
              rw [apply_add_ask_nobid h0 htype hpr hp0 hside hbid]
              exact ⟨rfl, fun hc => EventType.noConfusion hc,
                fun _ => ⟨fun hc => Side.noConfusion hc, fun _ pr2 _ _ => rfl⟩,
                fun _ hc => Side.noConfusion hc, fun hne _ => absurd rfl hne⟩
            | some bb =>
              by_cases hm : b.round_to_tick pr ≤ bb
              · rw [apply_add_ask_mkt h0 htype hpr hp0 hside hbid hm]
                refine ⟨rfl, fun hc => EventType.noConfusion hc,
                  fun _ => ⟨fun hc => Side.noConfusion hc, ?_⟩,
                  fun _ hc => Side.noConfusion hc,
                  fun _ _ => Or.inr ⟨rfl, pr, rfl, bb, rfl, hm⟩⟩
                intro _ pr2 hpr2 hno
                have hpr2e : pr = pr2 := by simpa using hpr2
                subst hpr2e
                exact absurd hm (hno bb rfl)
              · rw [apply_add_ask_passive h0 htype hpr hp0 hside hbid hm]
                exact ⟨rfl, fun hc => EventType.noConfusion hc,
                  fun _ => ⟨fun hc => Side.noConfusion hc, fun _ pr2 _ _ => rfl⟩,
                  fun _ hc => Side.noConfusion hc, fun hne _ => absurd rfl hne⟩

/-- C1: in every book reachable from a fresh `OrderBook` by any finite
sequence of `apply` calls, every stored level on either side has quantity at
least 1 and the best bid is strictly below the best ask whenever both sides
are non-empty; moreover an `Add` whose snapped price touches or crosses the
opposite best is executed against the opposite side (removing
`min q depth` units from it) and rests nothing on its own side. -/
theorem C1_book_invariants (tick : Option ℚ) (es : List Event) :
    levelsPos (reachableBook tick es).bids ∧
    levelsPos (reachableBook tick es).asks ∧
    (∀ pb ∈ ((reachableBook tick es).top).best_bid_price,
      ∀ pa ∈ ((reachableBook tick es).top).best_ask_price, pb < pa) ∧
    (∀ e : Event, ∀ pr a : ℚ, e.t.isSome → 0 < e.quantity →
      e.type = EventType.Add → e.price = some pr → ¬ pr ≤ 0 →
      (e.side = Side.Bid →
        ((reachableBook tick es).top).best_ask_price = some a →
        a ≤ (reachableBook tick es).round_to_tick pr →
        ((reachableBook tick es).apply e).2.bids = (reachableBook tick es).bids ∧
        totalQty ((reachableBook tick es).apply e).2.asks =
          totalQty (reachableBook tick es).asks -
            min e.quantity (totalQty (reachableBook tick es).asks)) ∧
      (e.side = Side.Ask →
        ((reachableBook tick es).top).best_bid_price = some a →
        (reachableBook tick es).round_to_tick pr ≤ a →
        ((reachableBook tick es).apply e).2.asks = (reachableBook tick es).asks ∧
        totalQty ((reachableBook tick es).apply e).2.bids =
          totalQty (reachableBook tick es).bids -
            min e.quantity (totalQty (reachableBook tick es).bids))) := by
  have hinv : BookInv (reachableBook tick es) := applyEvents_inv _ _ (new_inv tick)
  obtain ⟨hsb, hsa, hpb, hpa, hsep⟩ := hinv
  refine ⟨hpb, hpa, ?_, ?_⟩
  · intro pb hpbm pa hpam
    unfold OrderBook.top at hpbm hpam
    simp only [Option.mem_def, Option.map_eq_some'] at hpbm hpam
    rcases hpbm with ⟨lvb, hlvb, rfl⟩
    rcases hpam with ⟨lva, hlva, rfl⟩
    exact hsep lvb.1 (List.mem_map_of_mem Prod.fst (lastEntry_mem hlvb))
      lva.1 (List.mem_map_of_mem Prod.fst (head?_mem hlva))
  · intro e pr a ht hq htype hpr hp0
    have h0 : ¬ (e.t.isNone ∨ e.quantity ≤ 0) := by
      rintro (hx | hx)
      · rw [Option.isNone_iff_eq_none] at hx
        rw [hx] at ht
        simp at ht
      · omega
    constructor
    · intro hside hask hm
      rw [apply_add_bid_mkt h0 htype hpr hp0 hside hask hm]
      exact ⟨rfl, consume_best_ask_total hpa hq⟩
    · intro hside hbid hm
      rw [apply_add_ask_mkt h0 htype hpr hp0 hside hbid hm]
      refine ⟨rfl, ?_⟩
      show totalQty (consume_best_bid (reachableBook tick es).bids e.quantity) = _
      unfold consume_best_bid
      rw [totalQty_reverse, consume_best_ask_total (levelsPos_reverse hpb) hq,
        totalQty_reverse]

/-! ### Lemmas on the Hawkes engine -/

theorem decay_to_of_le {st : HawkesState} {t : ℝ} (h : t ≤ st.last_time) :
    decay_to st t = st := by
  unfold decay_to
  rw [if_pos h]

theorem decay_to_w (st : HawkesState) (t : ℝ) : (decay_to st t).w = st.w := by
  unfold decay_to
  split <;> rfl

theorem decay_to_lam_eq {st : HawkesState} {t : ℝ} (h : ¬ t ≤ st.last_time)
    (hmu : ∀ i, 0 < st.mu i) (hs : ∀ i, 0 ≤ st.s i) :
    ∀ i, (decay_to st t).lam i =
      st.mu i + st.s i * Real.exp (-(st.beta i i) * (t - st.last_time)) := by
  intro i
  have hpos : 0 < st.mu i + st.s i * Real.exp (-(st.beta i i) * (t - st.last_time)) := by
    have hE : 0 < Real.exp (-(st.beta i i) * (t - st.last_time)) := Real.exp_pos _
    nlinarith [hmu i, hs i]
  unfold decay_to
  rw [if_neg h]
  simp only []
  rw [if_neg (not_lt.mpr (le_of_lt hpos))]

theorem total_eq_of_pos {st : HawkesState} (h : ∀ i, 0 < st.lam i) :
    total_weighted_intensity st = ∑ i : Fin 6, st.w i * st.lam i := by
  unfold total_weighted_intensity
  exact Finset.sum_congr rfl (fun i _ => if_pos (h i))

/-- C2: for an engine state with non-negative excitation accumulators,
positive weights, positive baselines, positive diagonal decays and a
consistent intensity cache, the total weighted intensity is positive and,
after `decay_to`, monotonically non-increasing in time; hence the candidate
intensity computed after decaying to the (later) candidate time never
exceeds the bound `lambda_bar` taken before the decay, and the thinning
acceptance ratio is at most 1. -/
theorem C2_thinning_bound (st : HawkesState)
    (hs : ∀ i, 0 ≤ st.s i) (hw : ∀ i, 0 < st.w i) (hmu : ∀ i, 0 < st.mu i)
    (hb : ∀ i, 0 < st.beta i i)
    (hlam : ∀ i, st.lam i = if st.mu i + st.s i < 0 then 0 else st.mu i + st.s i)
    (t tp : ℝ) (hle : t ≤ tp) :
    0 < total_weighted_intensity st ∧
    total_weighted_intensity (decay_to st tp) ≤ total_weighted_intensity (decay_to st t) ∧
    total_weighted_intensity (decay_to st tp) / total_weighted_intensity st ≤ 1 := by
  have hlam_eq : ∀ i, st.lam i = st.mu i + st.s i := by
    intro i
    rw [hlam i, if_neg (not_lt.mpr (by nlinarith [hmu i, hs i]))]
  have hlam_pos : ∀ i, 0 < st.lam i := by
    intro i
    rw [hlam_eq i]
    nlinarith [hmu i, hs i]
  have hdec_lam : ∀ u : ℝ, ∀ i, 0 < (decay_to st u).lam i := by
    intro u i
    by_cases hu : u ≤ st.last_time
    · rw [decay_to_of_le hu]
      exact hlam_pos i
    · rw [decay_to_lam_eq hu hmu hs i]
      have hE : 0 < Real.exp (-(st.beta i i) * (u - st.last_time)) := Real.exp_pos _
      nlinarith [hmu i, hs i]
  have htot : ∀ u : ℝ,
      total_weighted_intensity (decay_to st u) =
        ∑ i : Fin 6, st.w i * (decay_to st u).lam i := by
    intro u
    rw [total_eq_of_pos (hdec_lam u)]
    exact Finset.sum_congr rfl (fun i _ => by rw [decay_to_w])
  have key : ∀ u v : ℝ, u ≤ v →
      total_weighted_intensity (decay_to st v) ≤
        total_weighted_intensity (decay_to st u) := by
    intro u v huv
    by_cases hv : v ≤ st.last_time
    · rw [decay_to_of_le hv, decay_to_of_le (le_trans huv hv)]
    · by_cases hu : u ≤ st.last_time
      · rw [decay_to_of_le hu, htot v, total_eq_of_pos hlam_pos]
        refine Finset.sum_le_sum (fun i _ => ?_)
        rw [decay_to_lam_eq hv hmu hs i, hlam_eq i]
        have hexp : Real.exp (-(st.beta i i) * (v - st.last_time)) ≤ 1 := by
          rw [Real.exp_le_one_iff]
          nlinarith [hb i]
        have : st.s i * Real.exp (-(st.beta i i) * (v - st.last_time)) ≤ st.s i := by
          nlinarith [hs i, Real.exp_pos (-(st.beta i i) * (v - st.last_time))]
        nlinarith [hw i]
      · rw [htot v, htot u]
        refine Finset.sum_le_sum (fun i _ => ?_)
        rw [decay_to_lam_eq hv hmu hs i, decay_to_lam_eq hu hmu hs i]
        have hexp : Real.exp (-(st.beta i i) * (v - st.last_time)) ≤
            Real.exp (-(st.beta i i) * (u - st.last_time)) := by
          rw [Real.exp_le_exp]
          nlinarith [hb i]
        have : st.s i * Real.exp (-(st.beta i i) * (v - st.last_time)) ≤
            st.s i * Real.exp (-(st.beta i i) * (u - st.last_time)) := by
          nlinarith [hs i]
        nlinarith [hw i]
  have hpos : 0 < total_weighted_intensity st := by
    rw [total_eq_of_pos hlam_pos]
    exact Finset.sum_pos (fun i _ => mul_pos (hw i) (hlam_pos i)) Finset.univ_nonempty
  refine ⟨hpos, key t tp hle, ?_⟩
  rw [div_le_one hpos]
  by_cases htp : tp ≤ st.last_time
  · rw [decay_to_of_le htp]
  · have h2 := key st.last_time tp (le_of_not_le htp)
    rwa [decay_to_of_le (le_refl _)] at h2

theorem hawkesLoop_stream_stable : ∀ {fuel : ℕ} {st : HawkesState} {ct : ℝ} {g : RNG}
    {e : Event} {st2 : HawkesState} {g2 : RNG},
    hawkesLoop fuel st ct g = some (e, st2, g2) → g2.real = g.real
  | 0, st, ct, g, e, st2, g2, h => by simp [hawkesLoop] at h
  | fuel + 1, st, ct, g, e, st2, g2, h => by
    unfold hawkesLoop at h
    by_cases h1 : 0 < total_weighted_intensity st
    · rw [if_pos h1] at h
      simp only [RNG.nextReal, sample_dimension_weighted, RNG.nextQty] at h
      by_cases h2 : g.real (g.rpos + 1) ≤
          total_weighted_intensity (decay_to st
            (ct + -Real.log (g.real g.rpos) / total_weighted_intensity st)) /
            total_weighted_intensity st
      · rw [if_pos h2] at h
        by_cases h3 : 0 < total_weighted_intensity (decay_to st
            (ct + -Real.log (g.real g.rpos) / total_weighted_intensity st))
        · rw [if_pos h3] at h
          simp only [Option.some.injEq, Prod.mk.injEq] at h
          rw [← h.2.2]
        · rw [if_neg h3] at h
          simp only [Option.some.injEq, Prod.mk.injEq] at h
          rw [← h.2.2]
      · rw [if_neg h2] at h
        have h2s := hawkesLoop_stream_stable
          (g := ⟨g.real, g.qty, g.rpos + 1 + 1, g.qpos⟩) h
        exact h2s
    · rw [if_neg h1] at h
      exact hawkesLoop_stream_stable h

theorem hawkesLoop_time_ge : ∀ {fuel : ℕ} {st : HawkesState} {ct : ℝ} {g : RNG},
    (∀ n, 0 ≤ g.real n ∧ g.real n ≤ 1) →
    ∀ {e : Event} {st2 : HawkesState} {g2 : RNG},
    hawkesLoop fuel st ct g = some (e, st2, g2) → ∀ tv ∈ e.t, ct ≤ tv
  | 0, st, ct, g, hg, e, st2, g2, h => by simp [hawkesLoop] at h
  | fuel + 1, st, ct, g, hg, e, st2, g2, h => by
    unfold hawkesLoop at h
    by_cases h1 : 0 < total_weighted_intensity st
    · rw [if_pos h1] at h
      simp only [RNG.nextReal, sample_dimension_weighted, RNG.nextQty] at h
      have hwait : 0 ≤ -Real.log (g.real g.rpos) / total_weighted_intensity st := by
        have hlog : Real.log (g.real g.rpos) ≤ 0 :=
          Real.log_nonpos (hg g.rpos).1 (hg g.rpos).2
        exact div_nonneg (by linarith) (le_of_lt h1)
      by_cases h2 : g.real (g.rpos + 1) ≤
          total_weighted_intensity (decay_to st
            (ct + -Real.log (g.real g.rpos) / total_weighted_intensity st)) /
            total_weighted_intensity st
      · rw [if_pos h2] at h
        by_cases h3 : 0 < total_weighted_intensity (decay_to st
            (ct + -Real.log (g.real g.rpos) / total_weighted_intensity st))
        · rw [if_pos h3] at h
          simp only [Option.some.injEq, Prod.mk.injEq] at h
          intro tv htv
          rw [← h.1] at htv
          simp at htv
          rw [← htv]
          linarith
        · rw [if_neg h3] at h
          simp only [Option.some.injEq, Prod.mk.injEq] at h
          intro tv htv
          rw [← h.1] at htv
          simp at htv
          rw [← htv]
          linarith
      · rw [if_neg h2] at h
        intro tv htv
        have hrec := hawkesLoop_time_ge
          (g := ⟨g.real, g.qty, g.rpos + 1 + 1, g.qpos⟩) (fun n => hg n) h tv htv
        linarith
    · rw [if_neg h1] at h
      exact hawkesLoop_time_ge hg h

theorem hawkesNext_time_ge {fuel : ℕ} {st : HawkesState} {t : ℝ} {g : RNG}
    (hg : ∀ n, 0 ≤ g.real n ∧ g.real n ≤ 1)
    {e : Event} {st2 : HawkesState} {g2 : RNG}
    (h : hawkesNext fuel st t g = some (e, st2, g2)) : ∀ tv ∈ e.t, t ≤ tv :=
  hawkesLoop_time_ge hg h

theorem placeEvent_t (tick best_bid best_ask : ℚ) (prand : ℕ → ℤ) (ppos : ℕ)
    (e : Event) : ((placeEvent tick best_bid best_ask prand ppos e).1).t = e.t := by
  simp only [placeEvent]
  split_ifs <;> rfl

theorem simStep_clock {pc tick : ℚ} {fuel : ℕ} {s : SimState} {e : Event} {s2 : SimState}
    (hg : ∀ n, 0 ≤ s.g.real n ∧ s.g.real n ≤ 1)
    (h : simStep pc tick fuel s = some (e, s2)) :
    ∃ tv : ℝ, e.t = some tv ∧ s.clock ≤ tv ∧ s2.clock = tv ∧
      (∀ n, 0 ≤ s2.g.real n ∧ s2.g.real n ≤ 1) := by
  simp only [simStep] at h
  cases hnext : hawkesNext fuel
      (set_weights s.hawkes fun i => ((compute_weights s.book i : ℚ) : ℝ)) s.clock s.g with
  | none =>
    simp only [hnext] at h
    exact Option.noConfusion h
  | some v =>
    obtain ⟨e0, st2, g2⟩ := v
    simp only [hnext] at h
    cases he0t : e0.t with
    | none =>
      simp only [he0t] at h
      exact Option.noConfusion h
    | some tv =>
      simp only [he0t] at h
      cases hbb : ((livenessStep pc tick tv s.book).top).best_bid_price with
      | none =>
        simp only [hbb] at h
        exact Option.noConfusion h
      | some best_bid =>
        cases hba : ((livenessStep pc tick tv s.book).top).best_ask_price with
        | none =>
          simp only [hbb, hba] at h
          exact Option.noConfusion h
        | some best_ask =>
          simp only [hbb, hba, Option.some.injEq, Prod.mk.injEq] at h
          refine ⟨tv, ?_, ?_, ?_, ?_⟩
          · rw [← h.1, placeEvent_t, he0t]
          · have := hawkesNext_time_ge hg hnext tv (by rw [he0t]; rfl)
            exact this
          · rw [← h.2]
          · rw [← h.2]
            intro n
            have hst : g2.real = s.g.real := hawkesLoop_stream_stable hnext
            simp only [hst]
            exact hg n

theorem simRun_times_chain : ∀ (N : ℕ) (pc tick : ℚ) (fuel : ℕ) (s : SimState),
    (∀ n, 0 ≤ s.g.real n ∧ s.g.real n ≤ 1) →
    List.Chain' (· ≤ ·)
      (s.clock :: (simRun pc tick fuel N s).map (fun e => e.t.getD 0))
  | 0, pc, tick, fuel, s, hg => by simp [simRun]
  | N + 1, pc, tick, fuel, s, hg => by
    unfold simRun
    cases hstep : simStep pc tick fuel s with
    | none => simp
    | some v =>
      obtain ⟨e, s2⟩ := v
      rcases simStep_clock hg hstep with ⟨tv, het, hle, hclk, hg2⟩
      have ih := simRun_times_chain N pc tick fuel s2 hg2
      rw [List.map_cons, List.chain'_cons]
      constructor
      · rw [het]
        simpa using hle
      · rw [het]
        simp only [Option.getD_some]
        rw [hclk] at ih
        exact ih

/-- C6: the event produced by `next(t)` carries a time at least `t`
(the waiting increments `-log u / lambda_bar` are non-negative for uniform
draws in `[0,1]`), and consequently the event-time sequence emitted by the
simulation loop, which sets the clock to each returned time, is
non-decreasing. -/
theorem C6_nondecreasing_times (fuel : ℕ) (st : HawkesState) (t : ℝ) (g : RNG)
    (hg : ∀ n, 0 ≤ g.real n ∧ g.real n ≤ 1)
    (pc tick : ℚ) (N : ℕ) (s : SimState)
    (hsg : ∀ n, 0 ≤ s.g.real n ∧ s.g.real n ≤ 1) :
    (∀ (e : Event) (st2 : HawkesState) (g2 : RNG),
      hawkesNext fuel st t g = some (e, st2, g2) → ∀ tv ∈ e.t, t ≤ tv) ∧
    List.Chain' (· ≤ ·)
      (s.clock :: (simRun pc tick fuel N s).map (fun e => e.t.getD 0)) :=
  ⟨fun _ _ _ h => hawkesNext_time_ge hg h, simRun_times_chain N pc tick fuel s hsg⟩

/-- C3 (failing input): with an empty bid side and the best ask resting at
`99.8 < price_center - tick = 99.9`, the safety `Add` injected by the
liveness step is marketable: it is matched against the ask side and never
rested, so after the step the bid side is still empty (here the whole book
is empty) and the unconditional `best_bid`/`best_ask` reads that follow in
the source dereference empty optionals. -/
theorem C3_liveness_counterexample :
    (livenessStep 100 (1 / 10) 0 bookC3).bids = [] ∧
    (livenessStep 100 (1 / 10) 0 bookC3).asks = [] := by
  have hround : bookC3.round_to_tick (999 / 10) = 999 / 10 := by
    norm_num [bookC3, OrderBook.round_to_tick, roundHalfAway]
  have happ : bookC3.apply ⟨some 0, EventType.Add, Side.Bid, some (999 / 10), 50⟩ =
      (true, { tick_size := 1 / 10, bids := [], asks := [] }) := by
    rw [apply_add_bid_mkt (b := bookC3)
      (e := ⟨some 0, EventType.Add, Side.Bid, some (999 / 10), 50⟩)
      (a := 499 / 5) (by norm_num) rfl rfl (by norm_num) rfl rfl
      (by rw [hround]; norm_num)]
    norm_num [bookC3, consume_best_ask]
  simp only [livenessStep]
  norm_num [show (bookC3.top).best_bid_price.isNone = true from rfl,
    show (bookC3.top).best_ask_price.isNone = false from rfl, happ]

/-- C9: the composed engine and simulator form a deterministic function of
the Hawkes parameters, random streams (determined by the seeds), price grid
and event count: two runs with identical inputs emit identical sequences of
events. -/
theorem C9_determinism
    (mu1 mu2 : Fin 6 → ℝ) (alpha1 alpha2 beta1 beta2 : Fin 6 → Fin 6 → ℝ)
    (g1 g2 : RNG) (prand1 prand2 : ℕ → ℤ) (pc1 pc2 tick1 tick2 : ℚ)
    (fuel1 fuel2 N1 N2 : ℕ)
    (hmu : mu1 = mu2) (halpha : alpha1 = alpha2) (hbeta : beta1 = beta2)
    (hg : g1 = g2) (hprand : prand1 = prand2) (hpc : pc1 = pc2)
    (htick : tick1 = tick2) (hfuel : fuel1 = fuel2) (hN : N1 = N2) :
    simulate mu1 alpha1 beta1 g1 prand1 pc1 tick1 fuel1 N1 =
      simulate mu2 alpha2 beta2 g2 prand2 pc2 tick2 fuel2 N2 := by
  subst hmu
  subst halpha
  subst hbeta
  subst hg
  subst hprand
  subst hpc
  subst htick
  subst hfuel
  subst hN
  rfl

/-! ### Witnesses -/

theorem C4_witness :
    ((OrderBook.new (some 1)).apply evC4).1 = false ∧
    ((OrderBook.new (some 1)).apply evC4).2 = OrderBook.new (some 1) := by
  have h := C4_apply_false_iff (OrderBook.new (some 1)) evC4
  have h1 : ((OrderBook.new (some 1)).apply evC4).1 = false :=
    h.1.mpr (Or.inr (Or.inl (by norm_num [evC4])))
  exact ⟨h1, h.2 h1⟩

theorem C5_witness :
    (bookC5.apply evC5).1 = true ∧ (bookC5.apply evC5).2.bids = bookC5.bids ∧
    totalQty (bookC5.apply evC5).2.asks =
      totalQty bookC5.asks - min evC5.quantity (totalQty bookC5.asks) := by
  have h := C5_market_conservation bookC5 evC5
    (by norm_num [bookC5, levelsPos]) (by norm_num [bookC5, levelsPos])
    rfl (by norm_num [evC5]) rfl
  exact ⟨h.1, (h.2.1 rfl).1, (h.2.1 rfl).2.1⟩

theorem C7_witness :
    (bookC7.apply evC7).1 = true ∧ (bookC7.apply evC7).2 = bookC7 := by
  have h := C7_cancel_saturating bookC7 evC7 (201 / 2)
    (by simp [bookC7, keysSorted]) (by simp [bookC7, keysSorted])
    rfl (by norm_num [evC7]) rfl (by norm_num) rfl
  exact ⟨h.1, ((h.2.2 rfl).2.1) rfl⟩

theorem C8_witness :
    (bookC5.metrics).mid.isSome ∧ (bookC5.metrics).spread.isSome ∧
    (bookC5.metrics).imbalance_top1.isSome := by
  have h := C8_metrics bookC5
    (by norm_num [bookC5, levelsPos]) (by norm_num [bookC5, levelsPos])
  have hne : bookC5.bids ≠ [] ∧ bookC5.asks ≠ [] := by
    constructor <;> simp [bookC5]
  exact ⟨h.1.mpr hne, h.2.1.mpr hne, h.2.2.1.mpr hne⟩

theorem C10_witness :
    (bookC5.apply evC10).2.tick_size = bookC5.tick_size ∧
    (bookC5.apply evC10).2.asks = bookC5.asks :=
  ⟨(C10_frame bookC5 evC10).1, ((C10_frame bookC5 evC10).2.1 rfl).1 rfl⟩

theorem C2_witness :
    0 < total_weighted_intensity stC2 ∧
    total_weighted_intensity (decay_to stC2 1) ≤
      total_weighted_intensity (decay_to stC2 0) ∧
    total_weighted_intensity (decay_to stC2 1) / total_weighted_intensity stC2 ≤ 1 :=
  C2_thinning_bound stC2 (fun _ => le_refl 0) (fun _ => one_pos) (fun _ => one_pos)
    (fun _ => one_pos) (fun _ => rfl) 0 1 zero_le_one

theorem C6_witness :
    List.Chain' (· ≤ ·)
      (simC6.clock :: (simRun 100 (1 / 10) 5 3 simC6).map (fun e => e.t.getD 0)) :=
  (C6_nondecreasing_times 5 stC2 0 rngC6
    (fun _ => ⟨by norm_num [rngC6], by norm_num [rngC6]⟩) 100 (1 / 10) 3 simC6
    (fun _ => ⟨by norm_num [simC6, rngC6], by norm_num [simC6, rngC6]⟩)).2

theorem C9_witness :
    simulate muC9 aC9 (fun _ _ => 1) rngC6 (fun _ => 0) 100 (1 / 10) 5 3 =
      simulate muC9 aC9 (fun _ _ => 1) rngC6 (fun _ => 0) 100 (1 / 10) 5 3 :=
  C9_determinism muC9 muC9 aC9 aC9 (fun _ _ => 1) (fun _ _ => 1) rngC6 rngC6
    (fun _ => 0) (fun _ => 0) 100 100 (1 / 10) (1 / 10) 5 5 3 3
    rfl rfl rfl rfl rfl rfl rfl rfl rfl

theorem C1_witness :
    ((reachableBook (some (1 / 10)) esC1).apply evC1).2.bids =
      (reachableBook (some (1 / 10)) esC1).bids ∧
    totalQty ((reachableBook (some (1 / 10)) esC1).apply evC1).2.asks =
      totalQty (reachableBook (some (1 / 10)) esC1).asks -
        min evC1.quantity (totalQty (reachableBook (some (1 / 10)) esC1).asks) := by
  have h1 : ((OrderBook.new (some (1 / 10))).apply
      ⟨some 0, EventType.Add, Side.Bid, some 100, 50⟩).2 =
      { tick_size := 1 / 10, bids := [(100, 50)], asks := [] } := by
    rw [apply_add_bid_noask (b := OrderBook.new (some (1 / 10)))
      (e := ⟨some 0, EventType.Add, Side.Bid, some 100, 50⟩)
      (by norm_num) rfl rfl (by norm_num) rfl rfl]
    norm_num [OrderBook.new, OrderBook.round_to_tick, roundHalfAway, add_level, insertQty]
  have h2 : (({ tick_size := 1 / 10, bids := [(100, 50)], asks := [] } : OrderBook).apply
      ⟨some 0, EventType.Add, Side.Ask, some (201 / 2), 50⟩).2 =
      { tick_size := 1 / 10, bids := [(100, 50)], asks := [(201 / 2, 50)] } := by
    have hr : ({ tick_size := 1 / 10, bids := [(100, 50)], asks := [] } :
        OrderBook).round_to_tick (201 / 2) = 201 / 2 := by
      norm_num [OrderBook.round_to_tick, roundHalfAway]
    rw [apply_add_ask_passive (b := { tick_size := 1 / 10, bids := [(100, 50)], asks := [] })
      (e := ⟨some 0, EventType.Add, Side.Ask, some (201 / 2), 50⟩) (a := 100)
      (by norm_num) rfl rfl (by norm_num) rfl rfl (by rw [hr]; norm_num)]
    rw [hr]
    norm_num [add_level, insertQty]
  have hbook : reachableBook (some (1 / 10)) esC1 =
      { tick_size := 1 / 10, bids := [(100, 50)], asks := [(201 / 2, 50)] } := by
    unfold reachableBook applyEvents esC1
    simp only [List.foldl_cons, List.foldl_nil]
    rw [h1, h2]
  have h4 := (C1_book_invariants (some (1 / 10)) esC1).2.2.2 evC1 (201 / 2) (201 / 2)
    rfl (by norm_num [evC1]) rfl rfl (by norm_num)
  have hask : ((reachableBook (some (1 / 10)) esC1).top).best_ask_price =
      some (201 / 2) := by
    rw [hbook]
    rfl
  have hm : (201 / 2 : ℚ) ≤ (reachableBook (some (1 / 10)) esC1).round_to_tick (201 / 2) := by
    rw [hbook]
    norm_num [OrderBook.round_to_tick, roundHalfAway]
  exact h4.1 rfl hask hm
